import Mathlib

/-!
Verification development for the staging/assembly engine of the
"Distributing standalone Python applications" repository.

The canonical source is `src/scripts/package_app.py` (the most featureful
staging-script variant, which the specification's section 4 follows); the
archiver of `src/Env/package_app.py` / `src/Env/tools/package_app.py` is
embedded for the archive claims.  Python strings are Lean `String`s,
filesystem paths are lists of path components, and a filesystem is an
association list from paths to entries (first binding wins, so consing is
overwriting).  Regular-expression searches of the version resolver are
embedded as explicit character-list matchers for the four concrete
patterns appearing in the source.
-/

namespace Spec2Proof

/-! ## VersionResolver (`get_python_version`, src/scripts/package_app.py lines 27-67) -/

/-- ASCII whitespace recognised for the regex class `\s` (the Unicode
whitespace also matched by Python is not modelled; no claim depends on it). -/
def isSpaceChar (c : Char) : Bool :=
  c = ' ' || c = '\t' || c = '\n' || c = '\r' || c = '\x0b' || c = '\x0c'

/-- Characters of the regex class `[\d.]` (ASCII digits and the dot; Python's
Unicode digits are not modelled). -/
def isVerChar (c : Char) : Bool := c.isDigit || c = '.'

/-- Case-insensitive literal match at the current position (the patterns are
compiled with `re.I`); the literal is given in lower case.  Returns the
remaining input on success. -/
def matchCI : List Char → List Char → Option (List Char)
  | [], s => some s
  | _ :: _, [] => none
  | p :: ps, c :: cs => if c.toLower = p then matchCI ps cs else none

/-- Skip `\s*`. -/
def skipSpaces (cs : List Char) : List Char := cs.dropWhile isSpaceChar

/-- Expect one literal character. -/
def expectChar (c : Char) : List Char → Option (List Char)
  | [] => none
  | x :: xs => if x = c then some xs else none

/-- Greedy capture of `([\d.]+)` (must be non-empty); returns the capture and
the rest. -/
def captureVer (cs : List Char) : Option (List Char × List Char) :=
  let v := cs.takeWhile isVerChar
  if v.isEmpty then none else some (v, cs.dropWhile isVerChar)

/-- Pattern 1, `python\s*==\s*([\d.]+)`, attempted at a fixed position. -/
def p1At (s : List Char) : Option (List Char) := do
  let r ← matchCI "python".data s
  let r ← matchCI "==".data (skipSpaces r)
  let (v, _) ← captureVer (skipSpaces r)
  pure v

/-- Pattern 2, `python\s*==\s*"([\d.]+)"`, attempted at a fixed position. -/
def p2At (s : List Char) : Option (List Char) := do
  let r ← matchCI "python".data s
  let r ← matchCI "==".data (skipSpaces r)
  let r ← expectChar '"' (skipSpaces r)
  let (v, r) ← captureVer r
  let _ ← expectChar '"' r
  pure v

/-- Pattern 3, `python\s*=\s*"([\d.]+)"`, attempted at a fixed position. -/
def p3At (s : List Char) : Option (List Char) := do
  let r ← matchCI "python".data s
  let r ← expectChar '=' (skipSpaces r)
  let r ← expectChar '"' (skipSpaces r)
  let (v, r) ← captureVer r
  let _ ← expectChar '"' r
  pure v

/-- Pattern 4, `python_version\s*=\s*"([\d.]+)"`, attempted at a fixed
position. -/
def p4At (s : List Char) : Option (List Char) := do
  let r ← matchCI "python_version".data s
  let r ← expectChar '=' (skipSpaces r)
  let r ← expectChar '"' (skipSpaces r)
  let (v, r) ← captureVer r
  let _ ← expectChar '"' r
  pure v

/-- `re.search`: try the position-anchored matcher at each position from the
left; the leftmost successful position wins.  (For these patterns the
position-wise attempt is deterministic, because each starts with the literal
`python` and every quantified class is disjoint from the following literal.) -/
def searchPat (f : List Char → Option (List Char)) : List Char → Option (List Char)
  | [] => f []
  | c :: cs =>
    match f (c :: cs) with
    | some v => some v
    | none => searchPat f cs

/-- One line of the manifest tested against the four patterns in source
order (`for pattern in formats: pattern.search(line)`); the first matching
pattern's capture group is returned. -/
def lineVersion? (line : List Char) : Option (List Char) :=
  match searchPat p1At line with
  | some v => some v
  | none =>
    match searchPat p2At line with
    | some v => some v
    | none =>
      match searchPat p3At line with
      | some v => some v
      | none => searchPat p4At line

/-- Tail of the PEP 440 release matcher `[0-9]+(\.[0-9]+)*` over the capture
class `[\d.]`: `needDigit` records that the next character must open a digit
run (at the start and right after a dot). -/
def pep440Run (needDigit : Bool) : List Char → Bool
  | [] => !needDigit
  | c :: cs =>
    if c.isDigit then pep440Run false cs
    else if c = '.' && !needDigit then pep440Run true cs
    else false

/-- `packaging.version.parse` applied to a capture of the class `[\d.]+`
(line 54): it succeeds exactly when the capture is `digit+ ('.' digit+)*` —
the PEP 440 release segment; an epoch, a pre/post/dev or a local part would
need characters outside the class — and raises `InvalidVersion` otherwise
(`packaging >= 22`; comparing the parsed capture against the pre-parsed
`"3.9"`, line 55, never raises). -/
def parse_version_ok (v : List Char) : Bool := pep440Run true v

/-- Scan the manifest lines in file order.  The source returns from inside
the loop at the first line with a match — but only after `parse_version`
has accepted the capture (line 54): an invalid capture raises
`InvalidVersion` out of the loop into the broad `except` arm
(`Except.error`), so later lines are never consulted either way.
`Except.ok none` is a completed scan without any match. -/
def findPythonVersion : List (List Char) → Except Unit (Option (List Char))
  | [] => Except.ok none
  | l :: ls =>
    match lineVersion? l with
    | some v =>
      if parse_version_ok v then Except.ok (some v) else Except.error ()
    | none => findPythonVersion ls

/-- The fixed default version of `get_python_version`. -/
def defaultPythonVersion : String := "3.10.0"

/-- `get_python_version(req)`: `none` stands for a missing or unreadable
manifest (`read_text` raised, both `except` arms fall through to the
default); otherwise the manifest's lines are scanned and the first capture
is returned when `parse_version` accepts it — the below-3.9 warning only
prints — while an invalid first capture raises into the `except Exception`
arm and the default is returned, as it is when no line matches at all. -/
def get_python_version (manifest : Option (List String)) : String :=
  match manifest with
  | none => defaultPythonVersion
  | some lines =>
    match findPythonVersion (lines.map String.data) with
    | Except.ok (some v) => String.mk v
    | Except.ok none => defaultPythonVersion
    | Except.error _ => defaultPythonVersion

/-! ## MetadataWriter (src/scripts/package_app.py lines 257-263) -/

/-- The metadata record written by `build`, literally the five f-strings of
the single `write_text` call (note the fifth key is spelled
`PythonVersion` in the source). -/
def metadata_txt (app_name entry_file version pyver : String) : String :=
  "AppName=" ++ app_name ++ "\n" ++
  "AppFolder=" ++ app_name ++ "\n" ++
  "EntryFile=" ++ entry_file ++ "\n" ++
  "Version=" ++ version ++ "\n" ++
  "PythonVersion=" ++ pyver ++ "\n"

/-- The same record viewed as the ordered list of key-value pairs it
serialises. -/
def metadata_pairs (app_name entry_file version pyver : String) :
    List (String × String) :=
  [("AppName", app_name), ("AppFolder", app_name), ("EntryFile", entry_file),
   ("Version", version), ("PythonVersion", pyver)]

/-- Serialisation of a key-value list, one `Key=Value` line per pair. -/
def serializePairs (l : List (String × String)) : String :=
  l.foldr (fun kv acc => kv.1 ++ "=" ++ kv.2 ++ "\n" ++ acc) ""

theorem metadata_txt_eq_serialize (a e v p : String) :
    metadata_txt a e v p = serializePairs (metadata_pairs a e v p) := by
  apply String.ext
  simp only [metadata_txt, metadata_pairs, serializePairs, List.foldr,
    String.data_append, List.append_assoc]
  rfl

/-! ## Entry-module path conversion (`create_boot_py`, src/scripts/package_app.py line 88)

`module_path_str = str(Path(entry_module_file.replace("\\", ".").replace("/", ".")).with_suffix(""))`:
both separators are first replaced by dots, then `pathlib`'s `with_suffix("")`
removes the suffix of the (now single-component) name.  `pathlib` takes the
suffix to be the part from the last dot `i` of the name when `0 < i < len-1`,
and otherwise leaves the name unchanged.  The `ValueError` that `with_suffix`
raises on an empty name (entry paths like `""`, `"/"`, `"."`) is not
modelled; the theorems' hypotheses exclude those entries. -/

/-- Directory-separator characters replaced by the two `str.replace` calls. -/
def isSepChar (c : Char) : Bool := c = '/' || c = '\\'

/-- The two successive single-character `str.replace` calls, fused into one
character map (the first rewrites every backslash, the second every slash). -/
def dotify (cs : List Char) : List Char :=
  cs.map (fun c => if isSepChar c then '.' else c)

/-- Index of the last character satisfying `p` (Python's `str.rfind`
restricted to a character class). -/
def lastIdxP (p : Char → Bool) : List Char → Option Nat
  | [] => none
  | c :: cs =>
    match lastIdxP p cs with
    | some k => some (k + 1)
    | none => if p c then some 0 else none

/-- `PurePath.with_suffix("")` on a single-component name: drop from the last
dot `i` when `0 < i < len - 1`, else keep the name. -/
def dropLastSuffix (cs : List Char) : List Char :=
  match lastIdxP (fun c => c = '.') cs with
  | some i => if 0 < i ∧ i < cs.length - 1 then cs.take i else cs
  | none => cs

/-- The dotted module path embedded into the boot script (line 88). -/
def module_path_of_entry (entry : String) : String :=
  ⟨dropLastSuffix (dotify entry.data)⟩

/-- The module reference the generated boot script executes:
`runpy.run_module(f"{app}.{module}")` with the two placeholders substituted
from `app_pkg_name` and `module_path_str` (template lines 105-106 and 125,
instantiated by the `.format` call at lines 200-205). -/
def create_boot_py_module_ref (app_pkg_name entry_module_file : String) : String :=
  app_pkg_name ++ "." ++ module_path_of_entry entry_module_file

/-- Claim-side conversion, following the spec's words (section 4.4 step 4):
the file extension (the last dot-suffix of the final path component, when
that dot is not the component's first character) is dropped, and directory
separators become dots. -/
def spec_drop_extension (cs : List Char) : List Char :=
  let start := match lastIdxP isSepChar cs with
    | some j => j + 1
    | none => 0
  match lastIdxP (fun c => c = '.') (cs.drop start) with
  | some i => if 0 < i then cs.take (start + i) else cs
  | none => cs

/-- Claim-side dotted module path per the spec's words. -/
def spec_module_path (entry : String) : String :=
  ⟨dotify (spec_drop_extension entry.data)⟩

/-! ## Bootstrap search-path setup (template lines 119-122)

`paths_to_add = [install_root, app_code_path, site_packages_path, env_path]`
and `for p_idx, p_val in enumerate(paths_to_add): if os.path.exists(p_val)
and p_val not in sys.path: sys.path.insert(p_idx, p_val)`.  The four
candidate strings are abstract here (their concrete values are
`os.path.join` results); the loop over the enumerated list is embedded
directly, with `list.insert` clamping the index to the length as Python
does. -/

/-- Python's `list.insert(i, x)`: insert before position `i`, clamping to the
end when `i` exceeds the length. -/
def pyInsert (i : Nat) (x : α) (l : List α) : List α :=
  l.take i ++ x :: l.drop i

/-- The candidate list, in template order (line 119): install root,
application-code directory, bundled site-packages, bundled-runtime root. -/
def paths_to_add (install_root app_code_path site_packages_path env_path : String) :
    List String :=
  [install_root, app_code_path, site_packages_path, env_path]

/-- The `for p_idx, p_val in enumerate(...)` loop body over an enumerated
candidate list: insert at the enumeration index when the path exists on disk
(`ex`) and is not already in the current search path. -/
def bootInsertLoop (ex : String → Bool) : List (Nat × String) → List String → List String
  | [], sp => sp
  | (i, v) :: rest, sp =>
    bootInsertLoop ex rest (if ex v && !(sp.contains v) then pyInsert i v sp else sp)

/-- The final `sys.path` after the generated boot script's insertion loop,
starting from the interpreter's initial search path `init`. -/
def boot_sys_path (ex : String → Bool) (cands : List String) (init : List String) :
    List String :=
  bootInsertLoop ex cands.enum init

/-! ## Bootstrap failure boundary (template lines 109-197)

The generated script wraps startup in `try`/`except Exception`.  The handler
builds the diagnostic record, chooses a log path — the install root's `logs`
directory when `os.makedirs` on it succeeds (lines 153-156), otherwise a
temporary-directory fallback whose own `os.makedirs` call (lines 158-159 and
162-163) is NOT guarded by any `try` — attempts the append (lines 167-171,
guarded), always prints to stderr (line 183), optionally shows a message box
(lines 185-195, guarded), and calls `sys.exit(1)` (line 197).  The world
record abstracts which of these filesystem operations succeed. -/

inductive LogTarget where
  | installLogs
  | tempFallback
  deriving DecidableEq

inductive BootOutcome where
  /-- Startup raised nothing; the entry module ran. -/
  | completed
  /-- `sys.exit(code)` was reached. -/
  | exited (code : Nat)
  /-- An exception escaped the `except` handler itself. -/
  | escaped
  deriving DecidableEq

structure BootWorld where
  /-- Whether steps 1-4 (path setup, env export, `runpy.run_module`) raise. -/
  startupFails : Bool
  /-- Whether `_install_root_for_boot` had been assigned when the fault was
  raised (the handler's `if _install_root_for_boot:` test, line 151). -/
  installRootKnown : Bool
  /-- Whether `os.makedirs(<install root>/logs, exist_ok=True)` succeeds. -/
  mkLogDirOk : Bool
  /-- Whether `os.makedirs(<temp dir>, exist_ok=True)` succeeds. -/
  mkTempDirOk : Bool
  /-- Whether the `open(..., 'a')` append to the chosen log file succeeds. -/
  appendOk : LogTarget → Bool

structure BootResult where
  outcome : BootOutcome
  /-- The log path chosen by the handler, when it got that far. -/
  logTarget : Option LogTarget
  /-- Whether the diagnostic record reached the log file. -/
  wroteLog : Bool
  /-- Whether the `FATAL ERROR in ...` stderr line was printed. -/
  stderrReported : Bool
  deriving DecidableEq

/-- One run of the generated boot script, following the template's control
flow.  The unguarded `os.makedirs` of the temporary fallback directory
propagates its failure out of the `except` block (`BootOutcome.escaped`). -/
def boot_run (w : BootWorld) : BootResult :=
  if !w.startupFails then ⟨.completed, none, false, false⟩
  else
    if w.installRootKnown then
      if w.mkLogDirOk then
        ⟨.exited 1, some .installLogs, w.appendOk .installLogs, true⟩
      else if w.mkTempDirOk then
        ⟨.exited 1, some .tempFallback, w.appendOk .tempFallback, true⟩
      else ⟨.escaped, none, false, false⟩
    else
      if w.mkTempDirOk then
        ⟨.exited 1, some .tempFallback, w.appendOk .tempFallback, true⟩
      else ⟨.escaped, none, false, false⟩

/-! ## Filesystem model

Paths are lists of components; a filesystem is an association list from
paths to entries in which the first binding wins, so consing a binding is
overwriting.  Directory-permission failures and symbolic links are not
modelled; failure of `shutil.rmtree` on a non-directory and of
`shutil.copytree` on a missing or non-directory source are (they decide the
error-handling claims). -/

inductive Entry where
  | file (content : String)
  | dir
  deriving DecidableEq

abbrev Path := List String

abbrev FS := List (Path × Entry)

/-- Look up the live binding of a path (first binding wins). -/
def look : FS → Path → Option Entry
  | [], _ => none
  | (q, e) :: rest, p => if q = p then some e else look rest p

/-- `shutil.rmtree(root)`: remove the root and everything below it. -/
def rmtree (fs : FS) (root : Path) : FS :=
  fs.filter (fun b => !(root.isPrefixOf b.1))

/-- All prefixes of a path, the path itself included. -/
def prefixesOf (p : Path) : List Path :=
  (List.range (p.length + 1)).map (fun n => p.take n)

/-- `Path.mkdir(parents=True, exist_ok=True)`: create the directory and every
missing ancestor; existing entries are untouched.  (The `FileExistsError` a
real `mkdir` raises when an ancestor exists as a file is not modelled.) -/
def mkdirp (fs : FS) (d : Path) : FS :=
  (((prefixesOf d).filter (fun q => (look fs q).isNone)).map
    (fun q => (q, Entry.dir))) ++ fs

/-- `Path.mkdir(exist_ok=True)` without `parents`. -/
def mkdir_exist_ok (fs : FS) (d : Path) : FS :=
  if (look fs d).isNone then (d, Entry.dir) :: fs else fs

/-- `write_text` / `copy2` destination write: bind the path to a file. -/
def writeFile (fs : FS) (p : Path) (c : String) : FS :=
  (p, Entry.file c) :: fs

/-- Python's `str.endswith` / `fnmatch` suffix test, computed on the
character lists. -/
def endsWithStr (s suf : String) : Bool := suf.data.isSuffixOf s.data

/-- One name against `shutil.ignore_patterns('__pycache__', '*.pyc', '.git',
'.vscode')`. -/
def ignoredName (s : String) : Bool :=
  s == "__pycache__" || s == ".git" || s == ".vscode" || endsWithStr s ".pyc"

/-- A relative path is pruned by `copytree` when any of its components
matches an ignore pattern (a matching directory is skipped with its whole
subtree). -/
def ignoredRel (rel : Path) : Bool := rel.any ignoredName

/-- The distinct paths carrying a live binding. -/
def livePaths (fs : FS) : List Path := (fs.map Prod.fst).dedup

/-- `shutil.copytree(src, dst, ignore=...)` under an absent destination:
every non-ignored live entry below (and including) `src` reappears below
`dst`. -/
def copytree (fs : FS) (src dst : Path) : FS :=
  ((livePaths fs).filterMap (fun q =>
    if src.isPrefixOf q && !(ignoredRel (q.drop src.length)) then
      (look fs q).map (fun e => (dst ++ q.drop src.length, e))
    else none)) ++ fs

/-- Whether `q` is a direct child file of `d` named `*.py` (the
`any(f.endswith(".py") for f in files)` test of `os.walk`'s file list). -/
def isPyFileChild (fs : FS) (d q : Path) : Bool :=
  d.isPrefixOf q && q.length == d.length + 1 &&
  (match q.getLast? with
   | some n => endsWithStr n ".py"
   | none => false) &&
  (match look fs q with
   | some (Entry.file _) => true
   | _ => false)

def hasPyChild (fs : FS) (d : Path) : Bool :=
  (livePaths fs).any (isPyFileChild fs d)

/-- The directories visited by `os.walk(root)`: every live directory at or
below the root. -/
def walkDirs (fs : FS) (root : Path) : List Path :=
  (livePaths fs).filter (fun d => root.isPrefixOf d && decide (look fs d = some Entry.dir))

/-- `ensure_pkg_tree(root)` (src/scripts/package_app.py lines 209-219): in
every walked directory holding a `.py` file and no `__init__.py`, touch an
empty `__init__.py`.  The conditions are evaluated against the state before
the pass; this coincides with `os.walk`'s visit-time evaluation because the
pass only creates `__init__.py` files in directories that already contain a
`.py` file, so no directory's condition is changed before it is visited. -/
def ensure_pkg_tree (fs : FS) (root : Path) : FS :=
  ((walkDirs fs root).filterMap (fun d =>
    if hasPyChild fs d && (look fs (d ++ ["__init__.py"])).isNone then
      some (d ++ ["__init__.py"], Entry.file "")
    else none)) ++ fs

/-! ## The build pipeline (`build`, src/scripts/package_app.py lines 222-285) -/

def INTERNAL_SCRIPTS_DIR_NAME : String := "_internal"

/-- The line boundaries of `str.splitlines`: `\n`, `\r`, the ASCII vertical
tab, form feed and separator controls, next line, and the Unicode line and
paragraph separators (`\r\n` is treated as a single boundary by
`splitlinesAux`). -/
def isLineBreakChar (c : Char) : Bool :=
  c = '\n' || c = '\r' || c = '\x0B' || c = '\x0C' ||
  c = '\x1C' || c = '\x1D' || c = '\x1E' || c = '\x85' ||
  c = '\u2028' || c = '\u2029'

/-- `str.splitlines` on a character list: break at every line-boundary
character, fold `\r\n` into one break, and emit no entry after a trailing
break.  `acc` holds the current line reversed. -/
def splitlinesAux : List Char → List Char → List (List Char)
  | acc, [] => if acc.isEmpty then [] else [acc.reverse]
  | acc, '\r' :: '\n' :: cs => acc.reverse :: splitlinesAux [] cs
  | acc, c :: cs =>
    if isLineBreakChar c then acc.reverse :: splitlinesAux [] cs
    else splitlinesAux (c :: acc) cs

/-- `str.splitlines` (line 44). -/
def splitlines (s : String) : List String :=
  (splitlinesAux [] s.data).map String.mk

/-- `get_python_version` reads `src_dir / "requirements.txt"` (line 255);
a missing path or a directory makes `read_text` raise, which the function's
`except` arms turn into the default — modelled by `none`.  A readable file's
content is cut into lines by `read_text(...).splitlines()` (line 44). -/
def requirementsLines (fs : FS) (src_dir : Path) : Option (List String) :=
  match look fs (src_dir ++ ["requirements.txt"]) with
  | some (Entry.file c) => some (splitlines c)
  | _ => none

/-- One iteration of the helper-script copy loop (lines 248-253): copy the
named script from the packaging script's own directory into the internal
directory when it is a file (`source_file.is_file()`); otherwise only a
warning is printed. -/
def copyScriptStep (fs : FS) (script_dir internal_dir : Path) (fname : String) : FS :=
  match look fs (script_dir ++ [fname]) with
  | some (Entry.file c) => writeFile fs (internal_dir ++ [fname]) c
  | _ => fs

/-- Lines 248-253, the loop over `("setup.ps1", "setup_gui.ps1")`. -/
def copyScripts (fs : FS) (script_dir internal_dir : Path) : FS :=
  ["setup.ps1", "setup_gui.ps1"].foldl
    (fun acc fname => copyScriptStep acc script_dir internal_dir fname) fs

/-- Content stand-in for the generated `boot.py`.  The template (lines
92-198) is one fixed string whose only build-dependent parts are the
application package name and the dotted entry-module path (`.format` call,
lines 200-205), so the staged file's content is recorded through the module
reference those parameters produce; the template's runtime behaviour is
modelled separately by `boot_run`, `boot_sys_path` and
`create_boot_py_module_ref`. -/
def boot_py_content (app_pkg_name entry_module_file : String) : String :=
  create_boot_py_module_ref app_pkg_name entry_module_file

/-- `generate_custom_pth` (lines 69-80).  `len(parts) >= 2` is the
two-components pattern. -/
def generate_custom_pth (ver : String) : String :=
  let parts := ver.splitOn "."
  let base := match parts with
    | p0 :: p1 :: _ => "python" ++ p0 ++ p1
    | _ => "python" ++ ver.replace "." ""
  base ++ ".zip\nLib\n.\nimport site\n"

/-- The helper batch file written at lines 277-285. -/
def setup_bat_content : String :=
  "@echo off\r\necho Running setup from %~dp0setup.ps1\r\necho Installation target (parent of _internal) will be %~dp0..\\\r\npowershell.exe -ExecutionPolicy Bypass -NoProfile -File \"%~dp0setup.ps1\" -InstallPath \"%~dp0..\\\"\r\npause\r\n"

/-- Lines 241-253: create the internal-scripts directory
(`internal_dir.mkdir(exist_ok=True)`) and copy the helper scripts into it. -/
def buildScripted (fs : FS) (out_dir script_dir : Path) : FS :=
  copyScripts (mkdir_exist_ok fs (out_dir ++ [INTERNAL_SCRIPTS_DIR_NAME]))
    script_dir (out_dir ++ [INTERNAL_SCRIPTS_DIR_NAME])

/-- Lines 255-267: resolve the runtime version from the source tree's
manifest, then write `metadata.txt`, `boot.py` and `custom_pth.txt` into the
internal directory. -/
def buildWrites (fs : FS) (out_dir src_dir : Path)
    (app_name entry_file version : String) : FS :=
  let internal_dir := out_dir ++ [INTERNAL_SCRIPTS_DIR_NAME]
  let pyver := get_python_version (requirementsLines fs src_dir)
  writeFile
    (writeFile
      (writeFile fs (internal_dir ++ ["metadata.txt"])
        (metadata_txt app_name entry_file version pyver))
      (internal_dir ++ ["boot.py"]) (boot_py_content app_name entry_file))
    (internal_dir ++ ["custom_pth.txt"]) (generate_custom_pth pyver)

/-- Lines 269-285: remove a pre-existing application-code destination, copy
the source tree (`shutil.copytree` raises when the source is missing or not
a directory — `Except.error` carries the state at the raise), make the
copied tree a package tree, and write `setup.bat`. -/
def buildCopyPhase (fs : FS) (out_dir src_dir : Path)
    (app_name : String) : Except FS FS :=
  let dest := out_dir ++ [app_name]
  let s8 := if (look fs dest).isSome then rmtree fs dest else fs
  match look s8 src_dir with
  | some Entry.dir =>
    Except.ok (writeFile (ensure_pkg_tree (copytree s8 src_dir dest) dest)
      ((out_dir ++ [INTERNAL_SCRIPTS_DIR_NAME]) ++ ["setup.bat"]) setup_bat_content)
  | _ => Except.error s8

/-- The build steps after the destructive recreation of the output root
(lines 241-285), in source order. -/
def buildRest (fs : FS) (out_dir src_dir script_dir : Path)
    (app_name entry_file version : String) : Except FS FS :=
  buildCopyPhase
    (buildWrites (buildScripted fs out_dir script_dir) out_dir src_dir
      app_name entry_file version)
    out_dir src_dir app_name

/-- Lines 237-239: if the output root exists it is removed
(`shutil.rmtree`), then recreated with `mkdir(parents=True, exist_ok=True)`. -/
def stage (fs : FS) (out_dir : Path) : FS :=
  mkdirp (if (look fs out_dir).isSome then rmtree fs out_dir else fs) out_dir

/-- `build` (lines 222-285).  `shutil.rmtree` on an output root that exists
as a file raises, aborting before anything is written; otherwise the root is
destructively recreated and the remaining steps run. -/
def buildE (fs : FS) (out_dir src_dir script_dir : Path)
    (app_name entry_file version : String) : Except FS FS :=
  match look fs out_dir with
  | some (Entry.file _) => Except.error fs
  | _ =>
    buildRest (stage fs out_dir) out_dir src_dir script_dir
      app_name entry_file version

/-- The CLI entry point `main` (lines 288-307): resolve the application
folder, abort with `sys.exit("ERROR: app_folder not found")` before any
write when it is not a directory, else run `build` with the application
name defaulting to the folder's basename. -/
def main_cli (fs : FS) (app_folder out_dir script_dir : Path)
    (app_name : Option String) (entry_file version : String) : Except FS FS :=
  if look fs app_folder = some Entry.dir then
    buildE fs out_dir app_folder script_dir
      (app_name.getD (app_folder.getLastD "")) entry_file version
  else Except.error fs

/-- The filesystem state an invocation leaves behind, also on the error
path. -/
def resultState : Except FS FS → FS
  | Except.ok s => s
  | Except.error s => s

/-! ## Archiver (`zip_directory`, src/Env/package_app.py lines 132-144 and
src/Env/tools/package_app.py lines 168-176)

`os.walk(source_dir)` yields only files, each written under the arcname
`relpath(abs_file, dirname(source_dir))`, i.e. the source directory's own
basename followed by the file's relative path.  Directories (in particular
empty ones) produce no archive entry. -/

/-- The archive's entries: arcname and content for every live file strictly
below the source directory.  `os.walk` of a missing or non-directory source
yields nothing. -/
def zip_entries (fs : FS) (source_dir : Path) : List (Path × String) :=
  if look fs source_dir = some Entry.dir then
    (livePaths fs).filterMap (fun q =>
      match look fs q with
      | some (Entry.file c) =>
        if source_dir.isPrefixOf q && decide (source_dir.length < q.length) then
          some (source_dir.getLastD "" :: q.drop source_dir.length, c)
        else none
      | _ => none)
  else []

/-- Extraction of archive entries below a destination: each entry becomes a
file, and every proper prefix of an entry's arcname becomes a directory
(archive extractors create the parent directories of each member). -/
def zip_extract (entries : List (Path × String)) (dest : Path) : FS :=
  (entries.map (fun e => (dest ++ e.1, Entry.file e.2))) ++
  (entries.flatMap (fun e =>
    ((prefixesOf e.1).filter (fun q => decide (q.length < e.1.length))).map
      (fun q => (dest ++ q, Entry.dir))))

/-! ## Theorems: VersionResolver (claim C1) -/

theorem findPythonVersion_append_of_none (pre rest : List (List Char))
    (h : ∀ l ∈ pre, lineVersion? l = none) :
    findPythonVersion (pre ++ rest) = findPythonVersion rest := by
  induction pre with
  | nil => rfl
  | cons a as ih =>
    have ha : lineVersion? a = none := h a (List.mem_cons_self a as)
    simp only [List.cons_append, findPythonVersion, ha]
    exact ih (fun l hl => h l (List.mem_cons_of_mem a hl))

theorem findPythonVersion_eq_none (lines : List (List Char))
    (h : ∀ l ∈ lines, lineVersion? l = none) :
    findPythonVersion lines = Except.ok none := by
  have := findPythonVersion_append_of_none lines [] h
  simpa [findPythonVersion] using this

/-- Claim C1 (counterexample): the version string captured from the first
matching line is not always returned.  The line `python==..` matches the
first pattern with capture `..`; `parse_version` (line 54) raises
`InvalidVersion` on that capture inside the `try`, the broad `except` arm
catches it, and the default is returned — without the later line that pins
`3.12.1` ever being consulted. -/
theorem get_python_version_invalid_capture_counterexample :
    lineVersion? ("python==.." : String).data = some (".." : String).data ∧
    lineVersion? ("python==3.12.1" : String).data = some ("3.12.1" : String).data ∧
    get_python_version (some ["python==..", "python==3.12.1"]) = "3.10.0" ∧
    ("3.10.0" : String) ≠ ".." ∧ ("3.10.0" : String) ≠ "3.12.1" := by
  refine ⟨by decide, by decide, by decide, by decide, by decide⟩

/-- Claim C1 (amended): `get_python_version` returns the fixed default
`"3.10.0"` for a missing or unreadable manifest and for a manifest none of
whose lines matches a recognized notation; when some line matches, the first
matching line in file order alone decides and later lines are never
consulted: its capture is returned when `parse_version` accepts it, while
the `InvalidVersion` it otherwise raises is caught and the default
returned. -/
theorem get_python_version_spec :
    (get_python_version none = "3.10.0") ∧
    (∀ lines : List String, (∀ l ∈ lines, lineVersion? l.data = none) →
      get_python_version (some lines) = "3.10.0") ∧
    (∀ (pre : List String) (line : String) (post post' : List String) (v : List Char),
      (∀ l ∈ pre, lineVersion? l.data = none) →
      lineVersion? line.data = some v →
      get_python_version (some (pre ++ line :: post)) =
        (if parse_version_ok v then String.mk v else "3.10.0") ∧
      get_python_version (some (pre ++ line :: post)) =
        get_python_version (some (pre ++ line :: post'))) := by
  refine ⟨rfl, ?_, ?_⟩
  · intro lines h
    have : findPythonVersion (lines.map String.data) = Except.ok none := by
      apply findPythonVersion_eq_none
      intro l hl
      obtain ⟨s, hs, rfl⟩ := List.mem_map.1 hl
      exact h s hs
    simp [get_python_version, this, defaultPythonVersion]
  · intro pre line post post' v hpre hline
    have key : ∀ post'' : List String,
        findPythonVersion (List.map String.data pre ++ line.data :: List.map String.data post'')
          = (if parse_version_ok v then Except.ok (some v) else Except.error ()) := by
      intro post''
      rw [findPythonVersion_append_of_none _ _
        (fun l hl => by
          obtain ⟨s, hs, rfl⟩ := List.mem_map.1 hl
          exact hpre s hs)]
      simp [findPythonVersion, hline]
    constructor
    · by_cases hv : parse_version_ok v = true
      · simp [get_python_version, key post, hv]
      · simp [get_python_version, key post, hv, defaultPythonVersion]
    · simp [get_python_version, key post, key post']

theorem get_python_version_spec_witness :
    ((∀ l ∈ (["# deps", "numpy>=1.0"] : List String), lineVersion? l.data = none) ∧
      lineVersion? ("python==3.12.1" : String).data = some "3.12.1".data ∧
      lineVersion? ("python==.." : String).data = some "..".data ∧
      (∀ l ∈ (["requests"] : List String), lineVersion? l.data = none)) ∧
    get_python_version (some ["# deps", "numpy>=1.0", "python==3.12.1", "python==9.9.9"])
      = "3.12.1" ∧
    get_python_version (some ["python==..", "python==3.12.1"]) = "3.10.0" ∧
    get_python_version (some ["requests"]) = "3.10.0" := by
  refine ⟨⟨by decide, by decide, by decide, by decide⟩, ?_, ?_, ?_⟩
  · exact ((get_python_version_spec.2.2 ["# deps", "numpy>=1.0"] "python==3.12.1"
      ["python==9.9.9"] [] "3.12.1".data (by decide) (by decide)).1).trans (by decide)
  · exact ((get_python_version_spec.2.2 [] "python==.."
      ["python==3.12.1"] [] "..".data (by decide) (by decide)).1).trans (by decide)
  · exact get_python_version_spec.2.1 ["requests"] (by decide)

/-! ## Theorems: MetadataWriter (claim C2) -/

/-- Claim C2 (counterexample): on the successful build of the spec's
end-to-end scenario (application `Demo`, entry `core.py`, version `2.0.0`,
manifest pinning `python==3.11.2`), the metadata record's five keys are
`AppName, AppFolder, EntryFile, Version, PythonVersion` — the fifth key is
spelled `PythonVersion`, not `RuntimeVersion` as the claim states. -/
theorem metadata_runtime_key_counterexample :
    ((metadata_pairs "Demo" "core.py" "2.0.0"
        (get_python_version (some ["python==3.11.2"]))).map Prod.fst =
      ["AppName", "AppFolder", "EntryFile", "Version", "PythonVersion"]) ∧
    (metadata_txt "Demo" "core.py" "2.0.0"
        (get_python_version (some ["python==3.11.2"])) =
      "AppName=Demo\nAppFolder=Demo\nEntryFile=core.py\nVersion=2.0.0\nPythonVersion=3.11.2\n") ∧
    (["AppName", "AppFolder", "EntryFile", "Version", "PythonVersion"] ≠
      ["AppName", "AppFolder", "EntryFile", "Version", "RuntimeVersion"]) := by
  refine ⟨by decide, by decide, by decide⟩

/-- Claim C2 (amended): for every build input, the metadata record consists
of exactly the five ordered pairs with keys `AppName, AppFolder, EntryFile,
Version, PythonVersion`, serialised one `Key=Value` line each, and the fifth
pair's value is the resolved runtime version (`PythonVersion=3.11.2` when
the manifest pins `3.11.2`). -/
theorem metadata_record_spec (a e v : String) (manifest : Option (List String)) :
    ((metadata_pairs a e v (get_python_version manifest)).map Prod.fst =
      ["AppName", "AppFolder", "EntryFile", "Version", "PythonVersion"]) ∧
    ((metadata_pairs a e v (get_python_version manifest)).getLast? =
      some ("PythonVersion", get_python_version manifest)) ∧
    (metadata_txt a e v (get_python_version manifest) =
      serializePairs (metadata_pairs a e v (get_python_version manifest))) :=
  ⟨rfl, rfl, metadata_txt_eq_serialize a e v (get_python_version manifest)⟩

/-! ## Theorems: bootstrap search-path insertion (claim C5) -/

theorem mem_pyInsert {x v : α} {i : Nat} {l : List α} :
    v ∈ pyInsert i x l ↔ v = x ∨ v ∈ l := by
  unfold pyInsert
  constructor
  · intro h
    rcases List.mem_append.1 h with h | h
    · exact Or.inr (List.take_subset i l h)
    · rcases List.mem_cons.1 h with h | h
      · exact Or.inl h
      · exact Or.inr (List.drop_subset i l h)
  · intro h
    rcases h with rfl | h
    · exact List.mem_append.2 (Or.inr (List.mem_cons_self _ _))
    · rw [← List.take_append_drop i l] at h
      rcases List.mem_append.1 h with h | h
      · exact List.mem_append.2 (Or.inl h)
      · exact List.mem_append.2 (Or.inr (List.mem_cons_of_mem _ h))

theorem mem_bootInsertLoop (ex : String → Bool) (l : List (Nat × String))
    (sp : List String) (v : String) :
    v ∈ bootInsertLoop ex l sp ↔
      v ∈ sp ∨ ((∃ i, (i, v) ∈ l) ∧ ex v = true) := by
  induction l generalizing sp with
  | nil => simp [bootInsertLoop]
  | cons iu rest ih =>
    obtain ⟨i, u⟩ := iu
    rw [bootInsertLoop, ih]
    by_cases hc : (ex u && !(sp.contains u)) = true
    · rw [if_pos hc]
      have hexu : ex u = true := by
        rcases Bool.and_eq_true_iff.1 hc with ⟨h', _⟩
        exact h'
      rw [mem_pyInsert]
      constructor
      · rintro ((rfl | h) | h)
        · exact Or.inr ⟨⟨i, by simp⟩, hexu⟩
        · exact Or.inl h
        · exact Or.inr ⟨⟨h.1.choose, List.mem_cons_of_mem _ h.1.choose_spec⟩, h.2⟩
      · rintro (h | ⟨⟨j, hj⟩, hex⟩)
        · exact Or.inl (Or.inr h)
        · rcases List.mem_cons.1 hj with hj | hj
          · exact Or.inl (Or.inl (congrArg Prod.snd hj))
          · exact Or.inr ⟨⟨j, hj⟩, hex⟩
    · rw [if_neg hc]
      constructor
      · rintro (h | h)
        · exact Or.inl h
        · exact Or.inr ⟨⟨h.1.choose, List.mem_cons_of_mem _ h.1.choose_spec⟩, h.2⟩
      · rintro (h | ⟨⟨j, hj⟩, hex⟩)
        · exact Or.inl h
        · rcases List.mem_cons.1 hj with hj | hj
          · injection hj with h1 h2
            subst h2
            have hsp : v ∈ sp := by
              by_contra hns
              apply hc
              rw [hex]
              simp [List.contains, List.elem_iff, hns]
            exact Or.inl hsp
          · exact Or.inr ⟨⟨j, hj⟩, hex⟩

/-- Claim C5: the generated bootstrap script's module-search-path candidates
are, in fixed order, install root, application-code directory, bundled
site-packages, bundled-runtime root; a candidate enters the path only when
it exists on disk and is not already present, and when all four exist and
are fresh they land in exactly that order ahead of the pre-existing path, so
the first-inserted entry (the install root) resolves first. -/
theorem boot_sys_path_spec :
    (∀ (ex : String → Bool) (ir ac sp env : String) (init : List String) (v : String),
      v ∈ boot_sys_path ex (paths_to_add ir ac sp env) init ↔
        v ∈ init ∨ (v ∈ paths_to_add ir ac sp env ∧ ex v = true)) ∧
    (∀ (ex : String → Bool) (ir ac sp env : String) (init : List String),
      ex ir = true → ex ac = true → ex sp = true → ex env = true →
      (paths_to_add ir ac sp env).Nodup →
      ir ∉ init → ac ∉ init → sp ∉ init → env ∉ init →
      boot_sys_path ex (paths_to_add ir ac sp env) init =
        ir :: ac :: sp :: env :: init) := by
  constructor
  · intro ex ir ac sp env init v
    show v ∈ bootInsertLoop ex [(0, ir), (1, ac), (2, sp), (3, env)] init ↔ _
    rw [mem_bootInsertLoop]
    simp only [paths_to_add, List.mem_cons, List.not_mem_nil, or_false,
      Prod.mk.injEq]
    constructor
    · rintro (h | ⟨⟨i, h⟩, hex⟩)
      · exact Or.inl h
      · refine Or.inr ⟨?_, hex⟩
        rcases h with ⟨_, rfl⟩ | ⟨_, rfl⟩ | ⟨_, rfl⟩ | ⟨_, rfl⟩ <;> simp
    · rintro (h | ⟨h, hex⟩)
      · exact Or.inl h
      · refine Or.inr ⟨?_, hex⟩
        rcases h with rfl | rfl | rfl | rfl
        · exact ⟨0, Or.inl ⟨rfl, rfl⟩⟩
        · exact ⟨1, Or.inr (Or.inl ⟨rfl, rfl⟩)⟩
        · exact ⟨2, Or.inr (Or.inr (Or.inl ⟨rfl, rfl⟩))⟩
        · exact ⟨3, Or.inr (Or.inr (Or.inr ⟨rfl, rfl⟩))⟩
  · intro ex ir ac sp env init h1 h2 h3 h4 hnd f1 f2 f3 f4
    have hd := List.nodup_cons.1 hnd
    have hd2 := List.nodup_cons.1 hd.2
    have hd3 := List.nodup_cons.1 hd2.2
    have n12 : ac ≠ ir := fun h => hd.1 (by simp [h.symm])
    have n13 : sp ≠ ir := fun h => hd.1 (by simp [h.symm])
    have n14 : env ≠ ir := fun h => hd.1 (by simp [h.symm])
    have n23 : sp ≠ ac := fun h => hd2.1 (by simp [h.symm])
    have n24 : env ≠ ac := fun h => hd2.1 (by simp [h.symm])
    have n34 : env ≠ sp := fun h => hd3.1 (by simp [h.symm])
    show bootInsertLoop ex [(0, ir), (1, ac), (2, sp), (3, env)] init = _
    have c1 : (init.contains ir) = false := by
      simp [List.contains, List.elem_iff, f1]
    have c2 : ((ir :: init).contains ac) = false := by
      simp [List.contains, List.elem_iff, f2, n12]
    have c3 : ((ir :: ac :: init).contains sp) = false := by
      simp [List.contains, List.elem_iff, f3, n13, n23]
    have c4 : ((ir :: ac :: sp :: init).contains env) = false := by
      simp [List.contains, List.elem_iff, f4, n14, n24, n34]
    have e0 : pyInsert 0 ir init = ir :: init := rfl
    have e1 : pyInsert 1 ac (ir :: init) = ir :: ac :: init := rfl
    have e2 : pyInsert 2 sp (ir :: ac :: init) = ir :: ac :: sp :: init := rfl
    have e3 : pyInsert 3 env (ir :: ac :: sp :: init) = ir :: ac :: sp :: env :: init := rfl
    simp only [bootInsertLoop, h1, h2, h3, h4, e0, e1, e2, e3, c1, c2, c3, c4,
      Bool.not_false, Bool.and_self, if_true, if_pos, Bool.and_true]

theorem boot_sys_path_spec_witness :
    ((fun _ => true : String → Bool) "R" = true ∧
      (paths_to_add "R" "A" "S" "E").Nodup ∧ "R" ∉ (["x", "y"] : List String)) ∧
    boot_sys_path (fun _ => true) (paths_to_add "R" "A" "S" "E") ["x", "y"] =
      ["R", "A", "S", "E", "x", "y"] := by
  refine ⟨⟨rfl, by decide, by decide⟩, ?_⟩
  exact boot_sys_path_spec.2 (fun _ => true) "R" "A" "S" "E" ["x", "y"]
    rfl rfl rfl rfl (by decide) (by decide) (by decide) (by decide) (by decide)

/-! ## Theorems: entry-module path conversion (claim C6) -/

theorem lastIdxP_append (p : Char → Bool) (xs ys : List Char) :
    lastIdxP p (xs ++ ys) =
      match lastIdxP p ys with
      | some k => some (xs.length + k)
      | none => lastIdxP p xs := by
  induction xs with
  | nil => cases h : lastIdxP p ys <;> simp [h, lastIdxP]
  | cons a as ih =>
    rw [List.cons_append]
    show (match lastIdxP p (as ++ ys) with
      | some k => some (k + 1)
      | none => if p a then some 0 else none) = _
    rw [ih]
    cases h : lastIdxP p ys with
    | some k =>
      show some (as.length + k + 1) = some ((a :: as).length + k)
      simp only [List.length_cons]
      congr 1
      omega
    | none => rfl

theorem lastIdxP_eq_none_iff (p : Char → Bool) (l : List Char) :
    lastIdxP p l = none ↔ ∀ c ∈ l, p c = false := by
  induction l with
  | nil => simp [lastIdxP]
  | cons a as ih =>
    simp only [lastIdxP, List.mem_cons]
    cases h : lastIdxP p as with
    | some k =>
      constructor
      · intro hfalse; cases hfalse
      · intro hall
        have : lastIdxP p as = none :=
          ih.2 (fun c hc => hall c (Or.inr hc))
        rw [h] at this
        cases this
    | none =>
      cases hpa : p a with
      | true =>
        simp only [hpa, if_true]
        constructor
        · intro hfalse; cases hfalse
        · intro hall
          have := hall a (Or.inl rfl)
          rw [hpa] at this
          cases this
      | false =>
        simp only [hpa, Bool.false_eq_true, if_false]
        constructor
        · intro _ c hc
          rcases hc with rfl | hc
          · exact hpa
          · exact (ih.1 h) c hc
        · intro _; trivial

theorem lastIdxP_lt_length (p : Char → Bool) :
    ∀ {l : List Char} {i : Nat}, lastIdxP p l = some i → i < l.length := by
  intro l
  induction l with
  | nil => intro i h; cases h
  | cons a as ih =>
    intro i h
    simp only [lastIdxP] at h
    cases h' : lastIdxP p as with
    | some k =>
      rw [h'] at h
      injection h with h
      subst h
      exact Nat.succ_lt_succ (ih h')
    | none =>
      rw [h'] at h
      by_cases hpa : p a = true
      · rw [if_pos hpa] at h
        injection h with h
        subst h
        exact Nat.succ_pos _
      · rw [if_neg hpa] at h
        cases h

theorem dotify_append (xs ys : List Char) :
    dotify (xs ++ ys) = dotify xs ++ dotify ys :=
  List.map_append _ _ _

theorem dotify_of_no_sep {l : List Char} (h : ∀ c ∈ l, isSepChar c = false) :
    dotify l = l := by
  induction l with
  | nil => rfl
  | cons a as ih =>
    simp only [dotify, List.map_cons, h a (List.mem_cons_self a as), if_false,
      Bool.false_eq_true]
    rw [show List.map (fun c => if isSepChar c then '.' else c) as = dotify as from rfl,
      ih (fun c hc => h c (List.mem_cons_of_mem a hc))]

theorem dotify_length (l : List Char) : (dotify l).length = l.length :=
  List.length_map _ _

theorem lastIdxP_concat_run (ext : List Char) (hextdot : ∀ c ∈ ext, ¬(c = '.')) :
    lastIdxP (fun c => c = '.') ('.' :: ext) = some 0 := by
  have h : lastIdxP (fun c => c = '.') ext = none :=
    (lastIdxP_eq_none_iff _ _).2 (fun c hc => decide_eq_false (hextdot c hc))
  simp [lastIdxP, h]

theorem dropLastSuffix_concat (A ext : List Char) (hA : A ≠ []) (hext : ext ≠ [])
    (hextdot : ∀ c ∈ ext, ¬(c = '.')) :
    dropLastSuffix (A ++ '.' :: ext) = A := by
  have hApos : 0 < A.length := List.length_pos.2 hA
  have hextpos : 0 < ext.length := List.length_pos.2 hext
  have hscrut : lastIdxP (fun c => c = '.') (A ++ '.' :: ext) = some A.length := by
    rw [lastIdxP_append, lastIdxP_concat_run ext hextdot]
    rfl
  unfold dropLastSuffix
  rw [hscrut]
  show (if 0 < A.length ∧ A.length < (A ++ '.' :: ext).length - 1
      then List.take A.length (A ++ '.' :: ext) else A ++ '.' :: ext) = A
  have hcond : 0 < A.length ∧ A.length < (A ++ '.' :: ext).length - 1 := by
    simp only [List.length_append, List.length_cons]
    omega
  rw [if_pos hcond]
  exact List.take_left A ('.' :: ext)

theorem spec_drop_extension_concat (pre stem ext : List Char)
    (hstem : stem ≠ [])
    (hextdot : ∀ c ∈ ext, ¬(c = '.'))
    (hextsep : ∀ c ∈ ext, isSepChar c = false)
    (hstemsep : ∀ c ∈ stem, isSepChar c = false) :
    spec_drop_extension (pre ++ (stem ++ '.' :: ext)) = pre ++ stem := by
  have hstempos : 0 < stem.length := List.length_pos.2 hstem
  have hysep : lastIdxP isSepChar (stem ++ '.' :: ext) = none := by
    apply (lastIdxP_eq_none_iff _ _).2
    intro c hc
    rcases List.mem_append.1 hc with hc | hc
    · exact hstemsep c hc
    · rcases List.mem_cons.1 hc with rfl | hc
      · rfl
      · exact hextsep c hc
  have hassoc : pre ++ (stem ++ '.' :: ext) = (pre ++ stem) ++ '.' :: ext := by
    simp [List.append_assoc]
  have hsep_cs : lastIdxP isSepChar (pre ++ (stem ++ '.' :: ext)) =
      lastIdxP isSepChar pre := by
    rw [lastIdxP_append, hysep]
  unfold spec_drop_extension
  rw [hsep_cs]
  cases hp : lastIdxP isSepChar pre with
  | none =>
    show (match lastIdxP (fun c => c = '.')
        (List.drop 0 (pre ++ (stem ++ '.' :: ext))) with
      | some i => if 0 < i then List.take (0 + i) (pre ++ (stem ++ '.' :: ext))
                  else pre ++ (stem ++ '.' :: ext)
      | none => pre ++ (stem ++ '.' :: ext)) = pre ++ stem
    have hdot : lastIdxP (fun c => c = '.')
        (List.drop 0 (pre ++ (stem ++ '.' :: ext))) =
        some ((pre ++ stem).length) := by
      rw [List.drop_zero, hassoc, lastIdxP_append, lastIdxP_concat_run ext hextdot]
      rfl
    rw [hdot]
    show (if 0 < (pre ++ stem).length
        then List.take (0 + (pre ++ stem).length) (pre ++ (stem ++ '.' :: ext))
        else pre ++ (stem ++ '.' :: ext)) = pre ++ stem
    rw [if_pos (by simp only [List.length_append]; omega)]
    rw [Nat.zero_add, hassoc]
    exact List.take_left _ _
  | some j =>
    have hj : j < pre.length := lastIdxP_lt_length _ hp
    show (match lastIdxP (fun c => c = '.')
        (List.drop (j + 1) (pre ++ (stem ++ '.' :: ext))) with
      | some i => if 0 < i then List.take ((j + 1) + i) (pre ++ (stem ++ '.' :: ext))
                  else pre ++ (stem ++ '.' :: ext)
      | none => pre ++ (stem ++ '.' :: ext)) = pre ++ stem
    have hdrop : List.drop (j + 1) (pre ++ (stem ++ '.' :: ext)) =
        pre.drop (j + 1) ++ (stem ++ '.' :: ext) := by
      rw [List.drop_append_eq_append_drop]
      have h0 : j + 1 - pre.length = 0 := by omega
      rw [h0, List.drop_zero]
    have hdot : lastIdxP (fun c => c = '.')
        (List.drop (j + 1) (pre ++ (stem ++ '.' :: ext))) =
        some ((pre.drop (j + 1) ++ stem).length) := by
      rw [hdrop, show pre.drop (j + 1) ++ (stem ++ '.' :: ext) =
            (pre.drop (j + 1) ++ stem) ++ '.' :: ext from by simp [List.append_assoc],
        lastIdxP_append, lastIdxP_concat_run ext hextdot]
      rfl
    rw [hdot]
    show (if 0 < (pre.drop (j + 1) ++ stem).length
        then List.take ((j + 1) + (pre.drop (j + 1) ++ stem).length)
          (pre ++ (stem ++ '.' :: ext))
        else pre ++ (stem ++ '.' :: ext)) = pre ++ stem
    have hlen : (pre.drop (j + 1) ++ stem).length =
        (pre.length - (j + 1)) + stem.length := by
      simp [List.length_append, List.length_drop]
    rw [if_pos (by rw [hlen]; omega)]
    have htot : (j + 1) + ((pre.drop (j + 1) ++ stem).length) =
        (pre ++ stem).length := by
      rw [hlen]
      simp only [List.length_append]
      omega
    rw [htot, hassoc]
    exact List.take_left _ _

/-- Agreement of the source's module-path computation with the spec's, on
entries whose final component has a non-empty extension: both produce the
dotted directory part followed by the stem. -/
theorem module_path_agrees (pre stem ext : List Char)
    (hstem : stem ≠ [])
    (hext : ext ≠ [])
    (hextc : ∀ c ∈ ext, ¬(c = '.') ∧ isSepChar c = false)
    (hstemc : ∀ c ∈ stem, isSepChar c = false) :
    module_path_of_entry ⟨pre ++ (stem ++ '.' :: ext)⟩ = ⟨dotify pre ++ stem⟩ ∧
    spec_module_path ⟨pre ++ (stem ++ '.' :: ext)⟩ = ⟨dotify pre ++ stem⟩ := by
  have hstempos : 0 < stem.length := List.length_pos.2 hstem
  have hde : dotify ext = ext :=
    dotify_of_no_sep (fun c hc => (hextc c hc).2)
  have hds : dotify stem = stem := dotify_of_no_sep hstemc
  constructor
  · show String.mk (dropLastSuffix (dotify (pre ++ (stem ++ '.' :: ext)))) = _
    have hdd : dotify (pre ++ (stem ++ '.' :: ext)) =
        (dotify pre ++ stem) ++ '.' :: ext := by
      rw [dotify_append, dotify_append]
      simp only [dotify, List.map_cons]
      rw [show List.map (fun c => if isSepChar c then '.' else c) stem
            = dotify stem from rfl,
        show List.map (fun c => if isSepChar c then '.' else c) ext
            = dotify ext from rfl,
        hde, hds]
      simp [List.append_assoc]
    have hAnil : dotify pre ++ stem ≠ [] := by
      apply List.length_pos.1
      simp only [List.length_append]
      omega
    rw [hdd, dropLastSuffix_concat _ ext hAnil hext (fun c hc => (hextc c hc).1)]
  · show String.mk (dotify (spec_drop_extension (pre ++ (stem ++ '.' :: ext)))) = _
    rw [spec_drop_extension_concat pre stem ext hstem
      (fun c hc => (hextc c hc).1) (fun c hc => (hextc c hc).2) hstemc]
    rw [dotify_append, hds]

/-- Claim C6 (counterexample): for the entry file `sub/run` — a relative
path whose final component has no extension — the generated module reference
is `Demo.sub`, whereas the claimed conversion (separators to dots, extension
dropped) yields `Demo.sub.run`: `with_suffix("")` is applied after the
separators have already become dots, so the whole last dotted component is
treated as a suffix and dropped. -/
theorem module_ref_counterexample :
    create_boot_py_module_ref "Demo" "sub/run" = "Demo.sub" ∧
    "Demo" ++ "." ++ spec_module_path "sub/run" = "Demo.sub.run" ∧
    ("Demo.sub" : String) ≠ "Demo.sub.run" := by
  refine ⟨by decide, by decide, by decide⟩

/-- Claim C6 (amended): for every entry-file relative path whose final
component has a non-empty extension (a dot that is neither the component's
first nor last character), the module reference embedded in the generated
bootstrap script equals the application package name, a dot, and the entry
path with directory separators (`/` and `\`) replaced by dots and the
extension dropped — i.e. the spec's conversion.  (When the final component
has no extension, the code instead drops the last dotted component, see the
counterexample.) -/
theorem create_boot_py_module_ref_spec (app : String) (pre stem ext : List Char)
    (hstem : stem ≠ [])
    (hext : ext ≠ [])
    (hextc : ∀ c ∈ ext, ¬(c = '.') ∧ isSepChar c = false)
    (hstemc : ∀ c ∈ stem, isSepChar c = false) :
    create_boot_py_module_ref app ⟨pre ++ (stem ++ '.' :: ext)⟩ =
      app ++ "." ++ spec_module_path ⟨pre ++ (stem ++ '.' :: ext)⟩ := by
  unfold create_boot_py_module_ref
  have h := module_path_agrees pre stem ext hstem hext hextc hstemc
  rw [h.1, h.2]

theorem create_boot_py_module_ref_spec_witness :
    ("core".data ≠ [] ∧ "py".data ≠ [] ∧
      (∀ c ∈ "py".data, ¬(c = '.') ∧ isSepChar c = false) ∧
      (∀ c ∈ "core".data, isSepChar c = false)) ∧
    create_boot_py_module_ref "Demo" "sub/core.py" =
      "Demo" ++ "." ++ spec_module_path "sub/core.py" ∧
    create_boot_py_module_ref "Demo" "sub/core.py" = "Demo.sub.core" := by
  refine ⟨⟨by decide, by decide, by decide, by decide⟩, ?_, by decide⟩
  have h := create_boot_py_module_ref_spec "Demo" "sub/".data "core".data "py".data
    (by decide) (by decide) (by decide) (by decide)
  have e : (⟨"sub/".data ++ ("core".data ++ '.' :: "py".data)⟩ : String) = "sub/core.py" := rfl
  rw [e] at h
  exact h

/-! ## Theorems: bootstrap failure boundary (claim C7) -/

/-- Claim C7 (counterexample): when the install root is known but creating
both the install-root `logs` directory and the temporary fallback directory
fails, the unguarded `os.makedirs` inside the `except` block raises, so the
startup fault escapes the failure boundary instead of ending in
`sys.exit(1)` — contradicting the claim that no startup fault propagates
unhandled past the boundary. -/
theorem boot_failure_boundary_counterexample :
    boot_run ⟨true, true, false, false, fun _ => true⟩ =
      ⟨BootOutcome.escaped, none, false, false⟩ ∧
    BootOutcome.escaped ≠ BootOutcome.exited 1 := by
  refine ⟨rfl, by decide⟩

/-- Claim C7 (amended): every startup fault is caught by the failure
boundary, which attempts to append the diagnostic record to a log file under
the install root's `logs` sub-directory, falls back to a temporary-directory
log path when creating that directory fails (or when the install root is
unknown), prints a diagnostic to standard error and terminates with exit
code 1 — provided the chosen fallback directory can be created; a failure of
the append itself only loses the log record, and when the fallback
directory creation also fails the fault escapes the boundary. -/
theorem boot_failure_boundary_spec :
    (∀ w : BootWorld, w.startupFails = false →
      boot_run w = ⟨BootOutcome.completed, none, false, false⟩) ∧
    (∀ w : BootWorld, w.startupFails = true →
      (if w.installRootKnown then w.mkLogDirOk || w.mkTempDirOk
       else w.mkTempDirOk) = true →
      (boot_run w).outcome = BootOutcome.exited 1 ∧
      (boot_run w).stderrReported = true ∧
      (boot_run w).logTarget =
        some (if w.installRootKnown && w.mkLogDirOk then LogTarget.installLogs
              else LogTarget.tempFallback) ∧
      (boot_run w).wroteLog =
        w.appendOk (if w.installRootKnown && w.mkLogDirOk then LogTarget.installLogs
                    else LogTarget.tempFallback)) := by
  constructor
  · intro w h
    simp [boot_run, h]
  · intro w h1 h2
    obtain ⟨sf, irk, mld, mtd, ap⟩ := w
    subst h1
    cases irk <;> cases mld <;> cases mtd <;> simp_all [boot_run]

theorem boot_failure_boundary_spec_witness :
    ((⟨true, true, true, false, fun _ => true⟩ : BootWorld).startupFails = true ∧
      (if (⟨true, true, true, false, fun _ => true⟩ : BootWorld).installRootKnown
       then (⟨true, true, true, false, fun _ => true⟩ : BootWorld).mkLogDirOk ||
         (⟨true, true, true, false, fun _ => true⟩ : BootWorld).mkTempDirOk
       else (⟨true, true, true, false, fun _ => true⟩ : BootWorld).mkTempDirOk) = true) ∧
    (boot_run ⟨true, true, true, false, fun _ => true⟩).outcome = BootOutcome.exited 1 ∧
    (boot_run ⟨true, true, true, false, fun _ => true⟩).logTarget =
      some LogTarget.installLogs := by
  refine ⟨⟨rfl, rfl⟩, ?_, ?_⟩
  · exact (boot_failure_boundary_spec.2 ⟨true, true, true, false, fun _ => true⟩ rfl rfl).1
  · exact (boot_failure_boundary_spec.2 ⟨true, true, true, false, fun _ => true⟩ rfl rfl).2.2.1

/-! ## Filesystem lemmas: lookup characterizations of the operations -/

theorem prefixBool_iff (l₁ l₂ : Path) : l₁.isPrefixOf l₂ = true ↔ l₁ <+: l₂ := by
  exact List.isPrefixOf_iff_prefix

theorem look_append_of_some {a : FS} {p : Path} {e : Entry} (b : FS)
    (h : look a p = some e) : look (a ++ b) p = some e := by
  induction a with
  | nil => cases h
  | cons x xs ih =>
    obtain ⟨q, w⟩ := x
    by_cases hq : q = p
    · simp only [look, if_pos hq] at h
      simp only [List.cons_append, look, if_pos hq, h]
    · simp only [look, if_neg hq] at h
      simp only [List.cons_append, look, if_neg hq]
      exact ih h

theorem look_append_of_none {a : FS} {p : Path} (b : FS)
    (h : look a p = none) : look (a ++ b) p = look b p := by
  induction a with
  | nil => rfl
  | cons x xs ih =>
    obtain ⟨q, w⟩ := x
    by_cases hq : q = p
    · simp only [look, if_pos hq] at h
      cases h
    · simp only [look, if_neg hq] at h
      simp only [List.cons_append, look, if_neg hq]
      exact ih h

theorem look_isSome_iff_mem_keys (fs : FS) (p : Path) :
    (look fs p).isSome = true ↔ p ∈ fs.map Prod.fst := by
  induction fs with
  | nil => simp [look]
  | cons x xs ih =>
    obtain ⟨q, w⟩ := x
    by_cases hq : q = p
    · subst hq
      rw [List.map_cons]
      constructor
      · intro _
        exact List.mem_cons_self _ _
      · intro _
        rw [look, if_pos rfl]
        rfl
    · simp only [look, if_neg hq, List.map_cons, List.mem_cons, ih]
      constructor
      · exact Or.inr
      · rintro (h | h)
        · exact absurd h.symm hq
        · exact h

theorem mem_livePaths (fs : FS) (p : Path) :
    p ∈ livePaths fs ↔ (look fs p).isSome = true := by
  rw [livePaths, List.mem_dedup, look_isSome_iff_mem_keys]

theorem look_rmtree (fs : FS) (r p : Path) :
    look (rmtree fs r) p = if r <+: p then none else look fs p := by
  induction fs with
  | nil =>
    by_cases h : r <+: p
    · rw [if_pos h]; rfl
    · rw [if_neg h]; rfl
  | cons x xs ih =>
    obtain ⟨q, w⟩ := x
    rw [rmtree, List.filter_cons]
    cases hq : r.isPrefixOf q with
    | true =>
      simp only [hq, Bool.not_true, Bool.false_eq_true, if_false]
      rw [show List.filter (fun b => !r.isPrefixOf b.1) xs = rmtree xs r from rfl, ih]
      by_cases hqp : q = p
      · subst hqp
        have hpre := (prefixBool_iff r q).1 hq
        simp [hpre]
      · rw [look, if_neg hqp]
    | false =>
      simp only [hq, Bool.not_false, if_true]
      by_cases hqp : q = p
      · subst hqp
        rw [look, if_pos rfl, if_neg (fun hpre => by
          rw [(prefixBool_iff r q).2 hpre] at hq
          cases hq)]
        rw [look, if_pos rfl]
      · rw [look, if_neg hqp,
          show List.filter (fun b => !r.isPrefixOf b.1) xs = rmtree xs r from rfl, ih,
          look, if_neg hqp]

theorem look_writeFile (fs : FS) (q : Path) (c : String) (p : Path) :
    look (writeFile fs q c) p = if q = p then some (Entry.file c) else look fs p := rfl

theorem look_mkdir_exist_ok (fs : FS) (d p : Path) :
    look (mkdir_exist_ok fs d) p =
      if d = p ∧ look fs d = none then some Entry.dir else look fs p := by
  unfold mkdir_exist_ok
  cases h : look fs d with
  | none =>
    rw [if_pos (show (none : Option Entry).isNone = true from rfl)]
    by_cases hdp : d = p
    · rw [look, if_pos hdp, if_pos ⟨hdp, rfl⟩]
    · rw [look, if_neg hdp, if_neg (fun hc => hdp hc.1)]
  | some e =>
    rw [if_neg (show ¬(some e).isNone = true from by simp)]
    rw [if_neg (fun hc => by cases hc.2)]

theorem look_constmap (l : List Path) (e : Entry) (p : Path) :
    look (l.map (fun q => (q, e))) p = if p ∈ l then some e else none := by
  induction l with
  | nil => simp [look]
  | cons x xs ih =>
    by_cases hx : x = p
    · subst hx
      simp [look, ih]
    · simp only [List.map_cons, look, if_neg hx, ih, List.mem_cons]
      by_cases hp : p ∈ xs
      · rw [if_pos hp, if_pos (Or.inr hp)]
      · rw [if_neg hp, if_neg (by
          rintro (rfl | h)
          · exact hx rfl
          · exact hp h)]

theorem mem_prefixesOf (q d : Path) : q ∈ prefixesOf d ↔ q <+: d := by
  unfold prefixesOf
  simp only [List.mem_map, List.mem_range]
  constructor
  · rintro ⟨n, _, rfl⟩
    exact List.take_prefix n d
  · intro h
    refine ⟨q.length, ?_, ?_⟩
    · exact Nat.lt_succ_of_le h.length_le
    · exact (List.prefix_iff_eq_take.1 h).symm

theorem look_mkdirp (fs : FS) (d p : Path) :
    look (mkdirp fs d) p =
      if p <+: d ∧ look fs p = none then some Entry.dir else look fs p := by
  unfold mkdirp
  by_cases hc : p <+: d ∧ look fs p = none
  · rw [if_pos hc]
    apply look_append_of_some
    rw [look_constmap, if_pos]
    rw [List.mem_filter, mem_prefixesOf]
    exact ⟨hc.1, by rw [hc.2]; rfl⟩
  · rw [if_neg hc]
    apply look_append_of_none
    rw [look_constmap, if_neg]
    rw [List.mem_filter, mem_prefixesOf]
    rintro ⟨h1, h2⟩
    exact hc ⟨h1, by cases h : look fs p with
      | none => rfl
      | some e => rw [h] at h2; cases h2⟩

theorem append_drop_of_prefix_eq {a p : Path} (h : a <+: p) :
    a ++ p.drop a.length = p := by
  obtain ⟨t, rfl⟩ := h
  rw [List.drop_left]

theorem look_copyAdds (fs : FS) (src dst : Path) (l : List Path) (p : Path) :
    look (l.filterMap (fun q =>
        if src.isPrefixOf q && !(ignoredRel (q.drop src.length)) then
          (look fs q).map (fun e => (dst ++ q.drop src.length, e))
        else none)) p =
      if dst <+: p ∧ ignoredRel (p.drop dst.length) = false ∧
          (src ++ p.drop dst.length) ∈ l ∧
          (look fs (src ++ p.drop dst.length)).isSome = true
      then look fs (src ++ p.drop dst.length)
      else none := by
  induction l with
  | nil =>
    rw [List.filterMap_nil, if_neg]
    · rfl
    · rintro ⟨_, _, h, _⟩
      exact (List.not_mem_nil _) h
  | cons q t ih =>
    rw [List.filterMap_cons]
    split
    next hFq =>
      rw [ih]
      by_cases hc : dst <+: p ∧ ignoredRel (p.drop dst.length) = false ∧
          (src ++ p.drop dst.length) ∈ q :: t ∧
          (look fs (src ++ p.drop dst.length)).isSome = true
      · rcases List.mem_cons.1 hc.2.2.1 with heq | hmem
        · exfalso
          rw [← heq] at hFq
          rw [if_pos (by
              refine Bool.and_eq_true_iff.2
                ⟨(prefixBool_iff _ _).2 (List.prefix_append _ _), ?_⟩
              rw [List.drop_left, hc.2.1]
              rfl)] at hFq
          obtain ⟨e, he⟩ := Option.isSome_iff_exists.1 hc.2.2.2
          rw [he] at hFq
          cases hFq
        · rw [if_pos ⟨hc.1, hc.2.1, hmem, hc.2.2.2⟩, if_pos hc]
      · rw [if_neg (fun h => hc ⟨h.1, h.2.1, List.mem_cons_of_mem _ h.2.2.1, h.2.2.2⟩),
          if_neg hc]
    next b hFq =>
      by_cases hA : (src.isPrefixOf q && !(ignoredRel (q.drop src.length))) = true
      case neg =>
        rw [if_neg hA] at hFq
        cases hFq
      case pos =>
      rw [if_pos hA] at hFq
      obtain ⟨hpq, hig⟩ := Bool.and_eq_true_iff.1 hA
      have hpq' : src <+: q := (prefixBool_iff _ _).1 hpq
      cases hlq : look fs q with
      | none =>
        rw [hlq] at hFq
        cases hFq
      | some e =>
        rw [hlq] at hFq
        have hb : b = (dst ++ q.drop src.length, e) := by
          injection hFq with h
          exact h.symm
        subst hb
        by_cases hkp : dst ++ q.drop src.length = p
        · rw [look, if_pos hkp]
          have hrest : p.drop dst.length = q.drop src.length := by
            rw [← hkp, List.drop_left]
          have hqeq : src ++ p.drop dst.length = q := by
            rw [hrest]
            exact append_drop_of_prefix_eq hpq'
          have hdstp : dst <+: p := by
            rw [← hkp]
            exact List.prefix_append _ _
          have higp : ignoredRel (p.drop dst.length) = false := by
            rw [hrest]
            cases hi : ignoredRel (q.drop src.length)
            · rfl
            · rw [hi] at hig
              cases hig
          rw [if_pos ⟨hdstp, higp,
            by rw [hqeq]; exact List.mem_cons_self _ _,
            by rw [hqeq, hlq]; rfl⟩]
          rw [hqeq, hlq]
        · rw [look, if_neg hkp, ih]
          by_cases hc : dst <+: p ∧ ignoredRel (p.drop dst.length) = false ∧
              (src ++ p.drop dst.length) ∈ q :: t ∧
              (look fs (src ++ p.drop dst.length)).isSome = true
          · rcases List.mem_cons.1 hc.2.2.1 with heq | hmem
            · exfalso
              apply hkp
              rw [← heq, List.drop_left]
              exact append_drop_of_prefix_eq hc.1
            · rw [if_pos ⟨hc.1, hc.2.1, hmem, hc.2.2.2⟩, if_pos hc]
          · rw [if_neg (fun h => hc ⟨h.1, h.2.1, List.mem_cons_of_mem _ h.2.2.1, h.2.2.2⟩),
              if_neg hc]

theorem look_copytree (fs : FS) (src dst p : Path) :
    look (copytree fs src dst) p =
      if dst <+: p ∧ ignoredRel (p.drop dst.length) = false ∧
          (look fs (src ++ p.drop dst.length)).isSome = true
      then look fs (src ++ p.drop dst.length)
      else look fs p := by
  unfold copytree
  by_cases hc : dst <+: p ∧ ignoredRel (p.drop dst.length) = false ∧
      (look fs (src ++ p.drop dst.length)).isSome = true
  · rw [if_pos hc]
    obtain ⟨e, he⟩ := Option.isSome_iff_exists.1 hc.2.2
    have hstep := look_copyAdds fs src dst (livePaths fs) p
    rw [if_pos ⟨hc.1, hc.2.1, (mem_livePaths _ _).2 hc.2.2, hc.2.2⟩] at hstep
    rw [he] at hstep ⊢
    exact look_append_of_some _ hstep
  · rw [if_neg hc]
    apply look_append_of_none
    have hstep := look_copyAdds fs src dst (livePaths fs) p
    rw [if_neg (fun h => hc ⟨h.1, h.2.1, h.2.2.2⟩)] at hstep
    exact hstep

theorem hasPyChild_iff (fs : FS) (d : Path) :
    hasPyChild fs d = true ↔
      ∃ n c, endsWithStr n ".py" = true ∧ look fs (d ++ [n]) = some (Entry.file c) := by
  unfold hasPyChild
  rw [List.any_eq_true]
  constructor
  · rintro ⟨q, _, hpy⟩
    unfold isPyFileChild at hpy
    obtain ⟨h1, h2⟩ := Bool.and_eq_true_iff.1 hpy
    obtain ⟨h3, h4⟩ := Bool.and_eq_true_iff.1 h1
    obtain ⟨h5, h6⟩ := Bool.and_eq_true_iff.1 h3
    have hpre : d <+: q := (prefixBool_iff _ _).1 h5
    have hlen : q.length = d.length + 1 := by simpa using h6
    obtain ⟨t, rfl⟩ := hpre
    have htlen : t.length = 1 := by
      rw [List.length_append] at hlen
      omega
    obtain ⟨n, rfl⟩ := List.length_eq_one.1 htlen
    rw [List.getLast?_concat] at h4
    cases hl : look fs (d ++ [n]) with
    | none =>
      rw [hl] at h2
      cases h2
    | some e =>
      cases e with
      | dir =>
        rw [hl] at h2
        cases h2
      | file c => exact ⟨n, c, h4, hl⟩
  · rintro ⟨n, c, hn, hl⟩
    refine ⟨d ++ [n], (mem_livePaths _ _).2 (by rw [hl]; rfl), ?_⟩
    unfold isPyFileChild
    refine Bool.and_eq_true_iff.2 ⟨Bool.and_eq_true_iff.2
      ⟨Bool.and_eq_true_iff.2 ⟨?_, ?_⟩, ?_⟩, ?_⟩
    · exact (prefixBool_iff _ _).2 (List.prefix_append _ _)
    · rw [List.length_append]
      simp
    · rw [List.getLast?_concat]
      exact hn
    · rw [hl]

theorem mem_walkDirs (fs : FS) (root d : Path) :
    d ∈ walkDirs fs root ↔ root <+: d ∧ look fs d = some Entry.dir := by
  unfold walkDirs
  rw [List.mem_filter, mem_livePaths]
  constructor
  · rintro ⟨_, h2⟩
    obtain ⟨hp, hd⟩ := Bool.and_eq_true_iff.1 h2
    exact ⟨(prefixBool_iff _ _).1 hp, of_decide_eq_true hd⟩
  · rintro ⟨h1, h2⟩
    refine ⟨by rw [h2]; rfl, ?_⟩
    exact Bool.and_eq_true_iff.2 ⟨(prefixBool_iff _ _).2 h1, decide_eq_true h2⟩

theorem look_filterMap_const_val (G : Path → Option (Path × Entry))
    (hG : ∀ d pr, G d = some pr → pr.2 = Entry.file "") (l : List Path) (p : Path) :
    look (l.filterMap G) p =
      if ∃ d ∈ l, G d = some (p, Entry.file "") then some (Entry.file "") else none := by
  induction l with
  | nil =>
    rw [List.filterMap_nil, if_neg]
    · rfl
    · rintro ⟨d, hd, _⟩
      exact (List.not_mem_nil _) hd
  | cons q t ih =>
    rw [List.filterMap_cons]
    split
    next hGq =>
      rw [ih]
      by_cases hc : ∃ d ∈ q :: t, G d = some (p, Entry.file "")
      · obtain ⟨d, hd, hGd⟩ := hc
        rcases List.mem_cons.1 hd with rfl | hd'
        · rw [hGq] at hGd
          cases hGd
        · rw [if_pos ⟨d, hd', hGd⟩, if_pos ⟨d, List.mem_cons_of_mem _ hd', hGd⟩]
      · rw [if_neg (fun ⟨d, hd, hGd⟩ => hc ⟨d, List.mem_cons_of_mem _ hd, hGd⟩),
          if_neg hc]
    next b hGq =>
      have hb2 : b.2 = Entry.file "" := hG q b hGq
      obtain ⟨k, v⟩ := b
      simp only at hb2
      subst hb2
      by_cases hkp : k = p
      · subst hkp
        rw [look, if_pos rfl, if_pos ⟨q, List.mem_cons_self _ _, hGq⟩]
      · rw [look, if_neg hkp, ih]
        by_cases hc : ∃ d ∈ t, G d = some (p, Entry.file "")
        · obtain ⟨d, hd, hGd⟩ := hc
          rw [if_pos ⟨d, hd, hGd⟩, if_pos ⟨d, List.mem_cons_of_mem _ hd, hGd⟩]
        · rw [if_neg hc, if_neg (fun ⟨d, hd, hGd⟩ => by
            rcases List.mem_cons.1 hd with rfl | hd'
            · rw [hGq] at hGd
              injection hGd with h
              exact hkp (congrArg Prod.fst h)
            · exact hc ⟨d, hd', hGd⟩)]

theorem concat_init_eq (p : Path) (h : p.getLast? = some "__init__.py") :
    p.dropLast ++ ["__init__.py"] = p := by
  have hne : p ≠ [] := by
    intro h0
    subst h0
    cases h
  have h2 := List.getLast?_eq_getLast p hne
  rw [h2] at h
  injection h with h3
  rw [← h3]
  exact List.dropLast_append_getLast hne

theorem look_ensure (fs : FS) (root p : Path) :
    look (ensure_pkg_tree fs root) p =
      if p.getLast? = some "__init__.py" ∧ root <+: p.dropLast ∧
          look fs p.dropLast = some Entry.dir ∧ hasPyChild fs p.dropLast = true ∧
          look fs p = none
      then some (Entry.file "")
      else look fs p := by
  unfold ensure_pkg_tree
  have hG : ∀ d pr, (if hasPyChild fs d && (look fs (d ++ ["__init__.py"])).isNone then
      some (d ++ ["__init__.py"], Entry.file "") else none) = some pr →
      pr.2 = Entry.file "" := by
    intro d pr h
    by_cases hA : (hasPyChild fs d && (look fs (d ++ ["__init__.py"])).isNone) = true
    · rw [if_pos hA] at h
      injection h with h
      rw [← h]
    · rw [if_neg hA] at h
      cases h
  have hstep := look_filterMap_const_val _ hG (walkDirs fs root) p
  by_cases hc : p.getLast? = some "__init__.py" ∧ root <+: p.dropLast ∧
      look fs p.dropLast = some Entry.dir ∧ hasPyChild fs p.dropLast = true ∧
      look fs p = none
  · rw [if_pos hc]
    apply look_append_of_some
    rw [hstep, if_pos ?_]
    refine ⟨p.dropLast, (mem_walkDirs _ _ _).2 ⟨hc.2.1, hc.2.2.1⟩, ?_⟩
    rw [if_pos (Bool.and_eq_true_iff.2 ⟨hc.2.2.2.1, by
      rw [concat_init_eq p hc.1, hc.2.2.2.2]
      rfl⟩)]
    rw [concat_init_eq p hc.1]
  · rw [if_neg hc]
    apply look_append_of_none
    rw [hstep, if_neg]
    rintro ⟨d, hd, hGd⟩
    obtain ⟨hroot, hdir⟩ := (mem_walkDirs _ _ _).1 hd
    by_cases hA : (hasPyChild fs d && (look fs (d ++ ["__init__.py"])).isNone) = true
    · rw [if_pos hA] at hGd
      injection hGd with hGd
      have hkey : d ++ ["__init__.py"] = p := congrArg Prod.fst hGd
      obtain ⟨hpc, hnone⟩ := Bool.and_eq_true_iff.1 hA
      apply hc
      refine ⟨?_, ?_, ?_, ?_, ?_⟩
      · rw [← hkey]
        exact List.getLast?_concat _
      · rw [← hkey, List.dropLast_concat]
        exact hroot
      · rw [← hkey, List.dropLast_concat]
        exact hdir
      · rw [← hkey, List.dropLast_concat]
        exact hpc
      · rw [← hkey]
        exact Option.isNone_iff_eq_none.1 hnone
    · rw [if_neg hA] at hGd
      cases hGd

/-! ## Filesystem lemmas: congruence under lookup equivalence, and locality -/

/-- Two filesystem representations are equivalent when every path resolves
identically. -/
def FSeq (s1 s2 : FS) : Prop := ∀ p, look s1 p = look s2 p

/-- Same-shape relation on build outcomes with equivalent carried states. -/
def ExceptFSeq : Except FS FS → Except FS FS → Prop
  | Except.ok a, Except.ok b => FSeq a b
  | Except.error a, Except.error b => FSeq a b
  | _, _ => False

theorem resultState_congr {r1 r2 : Except FS FS} (h : ExceptFSeq r1 r2) :
    FSeq (resultState r1) (resultState r2) := by
  cases r1 <;> cases r2 <;> first
    | exact h
    | cases h

theorem rmtree_congr {s1 s2 : FS} (h : FSeq s1 s2) (r : Path) :
    FSeq (rmtree s1 r) (rmtree s2 r) := by
  intro p
  rw [look_rmtree, look_rmtree, h p]

theorem writeFile_congr {s1 s2 : FS} (h : FSeq s1 s2) (q : Path) (c : String) :
    FSeq (writeFile s1 q c) (writeFile s2 q c) := by
  intro p
  rw [look_writeFile, look_writeFile, h p]

theorem mkdirp_congr {s1 s2 : FS} (h : FSeq s1 s2) (d : Path) :
    FSeq (mkdirp s1 d) (mkdirp s2 d) := by
  intro p
  rw [look_mkdirp, look_mkdirp, h p]

theorem mkdir_exist_ok_congr {s1 s2 : FS} (h : FSeq s1 s2) (d : Path) :
    FSeq (mkdir_exist_ok s1 d) (mkdir_exist_ok s2 d) := by
  intro p
  rw [look_mkdir_exist_ok, look_mkdir_exist_ok, h d, h p]

theorem copytree_congr {s1 s2 : FS} (h : FSeq s1 s2) (src dst : Path) :
    FSeq (copytree s1 src dst) (copytree s2 src dst) := by
  intro p
  rw [look_copytree, look_copytree, h (src ++ p.drop dst.length), h p]

theorem hasPyChild_congr {s1 s2 : FS} (h : FSeq s1 s2) (d : Path) :
    hasPyChild s1 d = hasPyChild s2 d := by
  rw [Bool.eq_iff_iff, hasPyChild_iff, hasPyChild_iff]
  constructor
  · rintro ⟨n, c, hn, hl⟩
    exact ⟨n, c, hn, by rw [← h (d ++ [n])]; exact hl⟩
  · rintro ⟨n, c, hn, hl⟩
    exact ⟨n, c, hn, by rw [h (d ++ [n])]; exact hl⟩

theorem ensure_congr {s1 s2 : FS} (h : FSeq s1 s2) (root : Path) :
    FSeq (ensure_pkg_tree s1 root) (ensure_pkg_tree s2 root) := by
  intro p
  rw [look_ensure, look_ensure, h p.dropLast, h p, hasPyChild_congr h p.dropLast]

theorem copyScriptStep_congr {s1 s2 : FS} (h : FSeq s1 s2) (sd i : Path) (f : String) :
    FSeq (copyScriptStep s1 sd i f) (copyScriptStep s2 sd i f) := by
  intro p
  unfold copyScriptStep
  rw [h (sd ++ [f])]
  cases look s2 (sd ++ [f]) with
  | none => exact h p
  | some e =>
    cases e with
    | file c => exact writeFile_congr h (i ++ [f]) c p
    | dir => exact h p

theorem copyScripts_congr {s1 s2 : FS} (h : FSeq s1 s2) (sd i : Path) :
    FSeq (copyScripts s1 sd i) (copyScripts s2 sd i) := by
  show FSeq (copyScriptStep (copyScriptStep s1 sd i "setup.ps1") sd i "setup_gui.ps1") _
  exact copyScriptStep_congr (copyScriptStep_congr h sd i "setup.ps1") sd i "setup_gui.ps1"

theorem requirementsLines_congr {s1 s2 : FS} (h : FSeq s1 s2) (src : Path) :
    requirementsLines s1 src = requirementsLines s2 src := by
  unfold requirementsLines
  rw [h (src ++ ["requirements.txt"])]

theorem buildScripted_congr {s1 s2 : FS} (h : FSeq s1 s2) (out sd : Path) :
    FSeq (buildScripted s1 out sd) (buildScripted s2 out sd) :=
  copyScripts_congr (mkdir_exist_ok_congr h _) sd _

theorem buildWrites_congr {s1 s2 : FS} (h : FSeq s1 s2) (out src : Path)
    (a e v : String) :
    FSeq (buildWrites s1 out src a e v) (buildWrites s2 out src a e v) := by
  unfold buildWrites
  rw [requirementsLines_congr h src]
  exact writeFile_congr (writeFile_congr (writeFile_congr h _ _) _ _) _ _

theorem buildCopyPhase_congr {s1 s2 : FS} (h : FSeq s1 s2) (out src : Path)
    (a : String) :
    ExceptFSeq (buildCopyPhase s1 out src a) (buildCopyPhase s2 out src a) := by
  unfold buildCopyPhase
  dsimp only
  have h8 : FSeq
      (if (look s1 (out ++ [a])).isSome then rmtree s1 (out ++ [a]) else s1)
      (if (look s2 (out ++ [a])).isSome then rmtree s2 (out ++ [a]) else s2) := by
    rw [h (out ++ [a])]
    split
    · exact rmtree_congr h _
    · exact h
  rw [h8 src]
  cases look (if (look s2 (out ++ [a])).isSome then rmtree s2 (out ++ [a]) else s2) src with
  | none => exact h8
  | some e =>
    cases e with
    | dir =>
      exact writeFile_congr (ensure_congr (copytree_congr h8 src _) _) _ _
    | file c => exact h8

theorem buildRest_congr {s1 s2 : FS} (h : FSeq s1 s2) (out src sd : Path)
    (a e v : String) :
    ExceptFSeq (buildRest s1 out src sd a e v) (buildRest s2 out src sd a e v) :=
  buildCopyPhase_congr (buildWrites_congr (buildScripted_congr h out sd) out src a e v)
    out src a

/-! Locality: each operation leaves lookups outside its write set unchanged. -/

theorem concat_ne_self (q : Path) (x : String) : q ++ [x] ≠ q := by
  intro h
  have := congrArg List.length h
  simp at this

theorem dropLast_isPre (p : Path) : p.dropLast <+: p := by
  rw [List.dropLast_eq_take]
  exact List.take_prefix _ _

theorem look_copyScriptStep_off {fs : FS} {sd i : Path} {f : String} {p : Path}
    (h : p ≠ i ++ [f]) :
    look (copyScriptStep fs sd i f) p = look fs p := by
  unfold copyScriptStep
  cases look fs (sd ++ [f]) with
  | none => rfl
  | some e =>
    cases e with
    | file c =>
      rw [look_writeFile, if_neg (fun h' => h h'.symm)]
    | dir => rfl

theorem look_buildScripted_off {fs : FS} {out sd p : Path}
    (h : ¬ out <+: p) :
    look (buildScripted fs out sd) p = look fs p := by
  have hni : ∀ f : String, p ≠ (out ++ [INTERNAL_SCRIPTS_DIR_NAME]) ++ [f] := by
    intro f hp
    exact h (hp ▸ (List.prefix_append out _).trans (List.prefix_append _ _))
  show look (copyScriptStep (copyScriptStep _ sd _ "setup.ps1") sd _ "setup_gui.ps1") p = _
  rw [look_copyScriptStep_off (hni "setup_gui.ps1"),
    look_copyScriptStep_off (hni "setup.ps1"),
    look_mkdir_exist_ok, if_neg]
  rintro ⟨rfl, _⟩
  exact h (List.prefix_append out _)

theorem look_buildWrites_off {fs : FS} {out src p : Path} {a e v : String}
    (h : ¬ out <+: p) :
    look (buildWrites fs out src a e v) p = look fs p := by
  have hni : ∀ f : String, (out ++ [INTERNAL_SCRIPTS_DIR_NAME]) ++ [f] ≠ p := by
    intro f hp
    exact h (hp ▸ (List.prefix_append out _).trans (List.prefix_append _ _))
  unfold buildWrites
  rw [look_writeFile, if_neg (hni "custom_pth.txt"),
    look_writeFile, if_neg (hni "boot.py"),
    look_writeFile, if_neg (hni "metadata.txt")]

theorem look_buildCopyPhase_off {fs : FS} {out src p : Path} {a : String}
    (h : ¬ out <+: p) :
    look (resultState (buildCopyPhase fs out src a)) p = look fs p := by
  have hdest : ¬ (out ++ [a]) <+: p :=
    fun hp => h ((List.prefix_append out [a]).trans hp)
  have h8 : look (if (look fs (out ++ [a])).isSome then rmtree fs (out ++ [a]) else fs) p
      = look fs p := by
    split
    · rw [look_rmtree, if_neg hdest]
    · rfl
  unfold buildCopyPhase
  dsimp only
  cases hm : look (if (look fs (out ++ [a])).isSome then rmtree fs (out ++ [a]) else fs) src with
  | none =>
    simp only [resultState]
    exact h8
  | some e =>
    cases e with
    | dir =>
      simp only [resultState]
      rw [look_writeFile, if_neg (fun hp => h (by
        rw [← hp]
        exact (List.prefix_append out _).trans (List.prefix_append _ _)))]
      rw [look_ensure, if_neg (fun hc =>
        hdest (hc.2.1.trans (dropLast_isPre p)))]
      rw [look_copytree, if_neg (fun hc => hdest hc.1)]
      exact h8
    | file c =>
      simp only [resultState]
      exact h8

theorem look_buildRest_off {fs : FS} {out src sd p : Path} {a e v : String}
    (h : ¬ out <+: p) :
    look (resultState (buildRest fs out src sd a e v)) p = look fs p := by
  unfold buildRest
  rw [look_buildCopyPhase_off h, look_buildWrites_off h, look_buildScripted_off h]

theorem prefix_antisym {p q : Path} (h1 : p <+: q) (h2 : q <+: p) : p = q :=
  h1.eq_of_length (Nat.le_antisymm h1.length_le h2.length_le)

/-- Lookup after the destructive recreation of the output root: the root is
a directory, everything strictly below it is gone, missing ancestors are
created, and everything else is untouched.  The well-formedness premise says
ghost entries below a non-existing root do not occur (真 of real
filesystems); it is only needed when the root did not exist and the
`rmtree` is skipped. -/
theorem look_stage (fs : FS) (out p : Path)
    (hwf : look fs out = none → ∀ q, out <+: q → look fs q = none) :
    look (stage fs out) p =
      if out = p then some Entry.dir
      else if out <+: p then none
      else if p <+: out ∧ look fs p = none then some Entry.dir
      else look fs p := by
  unfold stage
  rw [look_mkdirp]
  by_cases h1 : out = p
  · subst h1
    have hs' : look (if (look fs out).isSome then rmtree fs out else fs) out = none := by
      split
      · rw [look_rmtree, if_pos (List.prefix_refl out)]
      · next hns =>
        cases hh : look fs out with
        | none => rfl
        | some e => exact absurd (by rw [hh]; rfl) hns
    rw [if_pos ⟨List.prefix_refl out, hs'⟩, if_pos rfl]
  · rw [if_neg h1]
    by_cases h2 : out <+: p
    · rw [if_pos h2,
        if_neg (fun hc => h1 (prefix_antisym h2 hc.1))]
      split
      · rw [look_rmtree, if_pos h2]
      · next hns =>
        have hn : look fs out = none := by
          cases hh : look fs out with
          | none => rfl
          | some e => exact absurd (by rw [hh]; rfl) hns
        exact hwf hn p h2
    · rw [if_neg h2]
      have hs' : look (if (look fs out).isSome then rmtree fs out else fs) p = look fs p := by
        split
        · rw [look_rmtree, if_neg h2]
        · rfl
      rw [hs']

theorem look_buildRest_out {fs : FS} {out src sd : Path} {a e v : String}
    (h : look fs out = some Entry.dir) :
    look (resultState (buildRest fs out src sd a e v)) out = some Entry.dir := by
  have hne1 : ∀ f : String, out ≠ (out ++ [INTERNAL_SCRIPTS_DIR_NAME]) ++ [f] := by
    intro f hp
    have := congrArg List.length hp
    simp [List.length_append] at this
  have h1 : look (buildScripted fs out sd) out = some Entry.dir := by
    show look (copyScriptStep (copyScriptStep _ sd _ "setup.ps1") sd _ "setup_gui.ps1")
      out = _
    rw [look_copyScriptStep_off (hne1 "setup_gui.ps1"),
      look_copyScriptStep_off (hne1 "setup.ps1"),
      look_mkdir_exist_ok,
      if_neg (fun hc => concat_ne_self out INTERNAL_SCRIPTS_DIR_NAME hc.1)]
    exact h
  have hne2 : ∀ f : String, (out ++ [INTERNAL_SCRIPTS_DIR_NAME]) ++ [f] ≠ out :=
    fun f hp => hne1 f hp.symm
  have h2 : look (buildWrites (buildScripted fs out sd) out src a e v) out
      = some Entry.dir := by
    unfold buildWrites
    rw [look_writeFile, if_neg (hne2 "custom_pth.txt"),
      look_writeFile, if_neg (hne2 "boot.py"),
      look_writeFile, if_neg (hne2 "metadata.txt")]
    exact h1
  unfold buildRest buildCopyPhase
  dsimp only
  set t := buildWrites (buildScripted fs out sd) out src a e v with ht
  have hdest : ¬ (out ++ [a]) <+: out := by
    intro hp
    have := hp.length_le
    simp [List.length_append] at this
  have h8 : look (if (look t (out ++ [a])).isSome then rmtree t (out ++ [a]) else t) out
      = some Entry.dir := by
    split
    · rw [look_rmtree, if_neg hdest]
      exact h2
    · exact h2
  cases hm : look (if (look t (out ++ [a])).isSome then rmtree t (out ++ [a]) else t)
      src with
  | none => simpa [resultState] using h8
  | some e' =>
    cases e' with
    | dir =>
      simp only [resultState]
      rw [look_writeFile, if_neg (hne2 "setup.bat")]
      have hcopy : look (copytree
          (if (look t (out ++ [a])).isSome then rmtree t (out ++ [a]) else t)
          src (out ++ [a])) out = some Entry.dir := by
        rw [look_copytree, if_neg (fun hc => hdest hc.1)]
        exact h8
      rw [look_ensure, if_neg (fun hc => absurd hc.2.2.2.2 (by rw [hcopy]; simp))]
      exact hcopy
    | file c => simpa [resultState] using h8

/-- Restaging absorbs a previous build: when `w` agrees off the output root
subtree with the staged form of `s`, staging `w` and staging `s` coincide
everywhere. -/
theorem stage_absorb (w s : FS) (out : Path)
    (hwf : look s out = none → ∀ q, out <+: q → look s q = none)
    (hwfw : look w out = none → ∀ q, out <+: q → look w q = none)
    (hoff : ∀ q, ¬ out <+: q → look w q =
      (if out = q then some Entry.dir
       else if out <+: q then none
       else if q <+: out ∧ look s q = none then some Entry.dir
       else look s q)) :
    FSeq (stage w out) (stage s out) := by
  intro q
  rw [look_stage w out q hwfw, look_stage s out q hwf]
  by_cases h1 : out = q
  · rw [if_pos h1, if_pos h1]
  · rw [if_neg h1, if_neg h1]
    by_cases h2 : out <+: q
    · rw [if_pos h2, if_pos h2]
    · rw [if_neg h2, if_neg h2]
      have hwq := hoff q h2
      rw [if_neg h1, if_neg h2] at hwq
      by_cases h3 : q <+: out ∧ look s q = none
      · rw [if_pos h3] at hwq
        rw [if_neg (fun hc => by rw [hwq] at hc; cases hc.2), hwq, if_pos h3]
      · rw [if_neg h3] at hwq
        by_cases h4 : q <+: out ∧ look w q = none
        · exact absurd ⟨h4.1, by rw [← hwq]; exact h4.2⟩ h3
        · rw [if_neg h4, if_neg h3, hwq]

/-- Claim C3: running `build` against the same output root first with one
source tree and then with another yields exactly the staging state of the
second run alone — the pre-existing root is removed and recreated, so
nothing from the first run survives.  The only premise is filesystem
well-formedness: no entries exist below the output root when the root
itself does not exist. -/
theorem build_rebuild_destructive (s : FS) (out srcA srcB sd : Path)
    (aA eA vA aB eB vB : String)
    (hwf : look s out = none → ∀ q, out <+: q → look s q = none) :
    ∀ p, look (resultState (buildE (resultState (buildE s out srcA sd aA eA vA))
          out srcB sd aB eB vB)) p
        = look (resultState (buildE s out srcB sd aB eB vB)) p := by
  intro p
  cases h0 : look s out with
  | some e0 =>
    cases e0 with
    | file c =>
      have hrun1 : buildE s out srcA sd aA eA vA = Except.error s := by
        unfold buildE
        rw [h0]
      rw [hrun1]
      rfl
    | dir =>
      have hrun1 : buildE s out srcA sd aA eA vA
          = buildRest (stage s out) out srcA sd aA eA vA := by
        unfold buildE
        rw [h0]
      have hstout : look (stage s out) out = some Entry.dir := by
        rw [look_stage s out out hwf, if_pos rfl]
      have hw1out : look (resultState (buildRest (stage s out) out srcA sd aA eA vA))
          out = some Entry.dir := look_buildRest_out hstout
      have hrun2w1 : buildE (resultState (buildRest (stage s out) out srcA sd aA eA vA))
          out srcB sd aB eB vB
          = buildRest (stage (resultState (buildRest (stage s out) out srcA sd aA eA vA))
              out) out srcB sd aB eB vB := by
        unfold buildE
        rw [hw1out]
      have hrun2s : buildE s out srcB sd aB eB vB
          = buildRest (stage s out) out srcB sd aB eB vB := by
        unfold buildE
        rw [h0]
      rw [hrun1, hrun2w1, hrun2s]
      refine resultState_congr (buildRest_congr ?_ out srcB sd aB eB vB) p
      exact stage_absorb (resultState (buildRest (stage s out) out srcA sd aA eA vA))
        s out hwf (by rw [hw1out]; exact fun h => by cases h)
        (fun q hq => (look_buildRest_off hq).trans
          (by rw [look_stage s out q hwf]))
  | none =>
    have hrun1 : buildE s out srcA sd aA eA vA
        = buildRest (stage s out) out srcA sd aA eA vA := by
      unfold buildE
      rw [h0]
    have hstout : look (stage s out) out = some Entry.dir := by
      rw [look_stage s out out hwf, if_pos rfl]
    have hw1out : look (resultState (buildRest (stage s out) out srcA sd aA eA vA))
        out = some Entry.dir := look_buildRest_out hstout
    have hrun2w1 : buildE (resultState (buildRest (stage s out) out srcA sd aA eA vA))
        out srcB sd aB eB vB
        = buildRest (stage (resultState (buildRest (stage s out) out srcA sd aA eA vA))
            out) out srcB sd aB eB vB := by
      unfold buildE
      rw [hw1out]
    have hrun2s : buildE s out srcB sd aB eB vB
        = buildRest (stage s out) out srcB sd aB eB vB := by
      unfold buildE
      rw [h0]
    rw [hrun1, hrun2w1, hrun2s]
    refine resultState_congr (buildRest_congr ?_ out srcB sd aB eB vB) p
    exact stage_absorb (resultState (buildRest (stage s out) out srcA sd aA eA vA))
      s out hwf (by rw [hw1out]; exact fun h => by cases h)
      (fun q hq => (look_buildRest_off hq).trans
        (by rw [look_stage s out q hwf]))

/-- A concrete world for exercising the rebuild theorem: a stale output
root, two source trees and a script directory. -/
def rebuildWitnessState : FS :=
  [(["out"], Entry.dir), (["out", "stale.txt"], Entry.file "old"),
   (["srcA"], Entry.dir), (["srcA", "a.py"], Entry.file "A"),
   (["srcB"], Entry.dir), (["srcB", "m.py"], Entry.file "x"),
   (["sd"], Entry.dir), (["sd", "setup.ps1"], Entry.file "PS")]

theorem build_rebuild_destructive_witness :
    (look rebuildWitnessState ["out"] ≠ none) ∧
    (∀ p, look (resultState (buildE
          (resultState (buildE rebuildWitnessState ["out"] ["srcA"] ["sd"] "A" "a.py" "1.0"))
          ["out"] ["srcB"] ["sd"] "B" "m.py" "2.0")) p
        = look (resultState (buildE rebuildWitnessState ["out"] ["srcB"] ["sd"]
            "B" "m.py" "2.0")) p) := by
  refine ⟨by decide, ?_⟩
  intro p
  exact build_rebuild_destructive rebuildWitnessState ["out"] ["srcA"] ["srcB"] ["sd"]
    "A" "a.py" "1.0" "B" "m.py" "2.0" (fun hn => absurd hn (by decide)) p

/-! ## Theorems: build error handling (claim C4) -/

/-- Claim C4 (counterexample): calling `build` (the cited symbol) with a
source directory that does not exist aborts with an error, but only at the
copy step — by then the output root has already been recreated and populated
with the internal artifacts, so "the output root is neither created nor
modified before the failure is detected" is false for the copy-failure
case. -/
theorem build_partial_output_counterexample :
    (buildE [] ["o"] ["missing"] ["sd"] "App" "core.py" "1.0.0").isOk = false ∧
    look (resultState (buildE [] ["o"] ["missing"] ["sd"] "App" "core.py" "1.0.0")) ["o"]
      = some Entry.dir ∧
    (look (resultState (buildE [] ["o"] ["missing"] ["sd"] "App" "core.py" "1.0.0"))
        ["o", "_internal", "metadata.txt"]).isSome = true := by
  refine ⟨by decide, by decide, by decide⟩

/-- Claim C4 (amended): when the build is invoked through the CLI entry
point `main` and the source application directory is missing (or not a
directory), the run aborts with a non-zero exit before `build` is entered
and the filesystem is returned unchanged; only a copy failure inside
`build` itself (source vanishing after the CLI check, or given as a
non-directory) leaves the recreated output root with partial internal
artifacts behind. -/
theorem main_cli_aborts_unchanged (fs : FS) (app_folder out sd : Path)
    (nm : Option String) (e v : String)
    (h : look fs app_folder ≠ some Entry.dir) :
    main_cli fs app_folder out sd nm e v = Except.error fs := by
  unfold main_cli
  rw [if_neg h]

theorem main_cli_aborts_unchanged_witness :
    (look ([] : FS) ["nope"] ≠ some Entry.dir) ∧
    main_cli [] ["nope"] ["o"] ["sd"] none "core.py" "1.0.0" = Except.error [] :=
  ⟨by decide, main_cli_aborts_unchanged [] ["nope"] ["o"] ["sd"] none "core.py" "1.0.0"
    (by decide)⟩

/-! ## Theorems: PackageMarker (claim C8) -/

/-- Claim C8: the package-marker pass creates an empty `__init__.py` exactly
in the walked directories that directly contain a `.py` file and lack the
marker, leaves every other lookup unchanged, and is idempotent: a second run
changes nothing. -/
theorem ensure_pkg_tree_spec :
    (∀ (fs : FS) (root d : Path),
      root <+: d → look fs d = some Entry.dir →
      (∃ n c, endsWithStr n ".py" = true ∧ look fs (d ++ [n]) = some (Entry.file c)) →
      look fs (d ++ ["__init__.py"]) = none →
      look (ensure_pkg_tree fs root) (d ++ ["__init__.py"]) = some (Entry.file "")) ∧
    (∀ (fs : FS) (root p : Path),
      (¬ ∃ d, p = d ++ ["__init__.py"] ∧ root <+: d ∧ look fs d = some Entry.dir ∧
        (∃ n c, endsWithStr n ".py" = true ∧ look fs (d ++ [n]) = some (Entry.file c)) ∧
        look fs (d ++ ["__init__.py"]) = none) →
      look (ensure_pkg_tree fs root) p = look fs p) ∧
    (∀ (fs : FS) (root p : Path),
      look (ensure_pkg_tree (ensure_pkg_tree fs root) root) p =
        look (ensure_pkg_tree fs root) p) := by
  refine ⟨?_, ?_, ?_⟩
  · intro fs root d hroot hdir hpy hmiss
    rw [look_ensure, if_pos]
    refine ⟨List.getLast?_concat _, ?_, ?_, ?_, hmiss⟩
    · rw [List.dropLast_concat]
      exact hroot
    · rw [List.dropLast_concat]
      exact hdir
    · rw [List.dropLast_concat]
      exact (hasPyChild_iff _ _).2 hpy
  · intro fs root p hno
    rw [look_ensure, if_neg]
    rintro ⟨hlast, hroot, hdir, hpych, hnone⟩
    refine hno ⟨p.dropLast, (concat_init_eq p hlast).symm, hroot, hdir,
      (hasPyChild_iff _ _).1 hpych, ?_⟩
    rw [concat_init_eq p hlast]
    exact hnone
  · intro fs root p
    rw [look_ensure (ensure_pkg_tree fs root) root p, if_neg]
    rintro ⟨hlast, hroot, hdir, hpy, hnone⟩
    rw [look_ensure] at hdir
    have hfsdir : look fs p.dropLast = some Entry.dir := by
      split at hdir
      · exact absurd hdir (by simp)
      · exact hdir
    obtain ⟨n, c, hn, hln⟩ := (hasPyChild_iff _ _).1 hpy
    rw [look_ensure] at hln
    rw [look_ensure] at hnone
    split at hln
    · next hc1 =>
      -- the walked-in marker case: the `.py` child found in the second run
      -- is itself a marker added by the first; its creation condition is
      -- exactly the condition for `p`, so the first run already created `p`
      obtain ⟨hc1last, hc1root, hc1dir, hc1py, hc1none⟩ := hc1
      rw [List.dropLast_concat] at hc1py
      split at hnone
      · cases hnone
      · next hnc =>
        exact hnc ⟨hlast, hroot, hfsdir, hc1py, hnone⟩
    · split at hnone
      · cases hnone
      · next hnc =>
        exact hnc ⟨hlast, hroot, hfsdir, (hasPyChild_iff _ _).2 ⟨n, c, hn, hln⟩, hnone⟩

theorem ensure_pkg_tree_spec_witness :
    ((["r"] : Path) <+: ["r"] ∧
      look [(["r"], Entry.dir), (["r", "app.py"], Entry.file "x")] ["r"]
        = some Entry.dir ∧
      look [(["r"], Entry.dir), (["r", "app.py"], Entry.file "x")] ["r", "__init__.py"]
        = none) ∧
    look (ensure_pkg_tree [(["r"], Entry.dir), (["r", "app.py"], Entry.file "x")] ["r"])
      ["r", "__init__.py"] = some (Entry.file "") ∧
    (∀ p, look (ensure_pkg_tree (ensure_pkg_tree
        [(["r"], Entry.dir), (["r", "app.py"], Entry.file "x")] ["r"]) ["r"]) p =
      look (ensure_pkg_tree [(["r"], Entry.dir), (["r", "app.py"], Entry.file "x")] ["r"]) p) := by
  refine ⟨⟨by decide, by decide, by decide⟩, ?_, ?_⟩
  · exact ensure_pkg_tree_spec.1 [(["r"], Entry.dir), (["r", "app.py"], Entry.file "x")]
      ["r"] ["r"] (by decide) (by decide) ⟨"app.py", "x", by decide, by decide⟩ (by decide)
  · intro p
    exact ensure_pkg_tree_spec.2.2 [(["r"], Entry.dir), (["r", "app.py"], Entry.file "x")]
      ["r"] p

/-! ## Theorems: Archiver (claim C9) -/

theorem mem_zip_entries (fs : FS) (src : Path) (hdir : look fs src = some Entry.dir)
    (arc : Path) (c : String) :
    (arc, c) ∈ zip_entries fs src ↔
      ∃ rel, rel ≠ [] ∧ arc = src.getLastD "" :: rel ∧
        look fs (src ++ rel) = some (Entry.file c) := by
  unfold zip_entries
  rw [if_pos hdir, List.mem_filterMap]
  constructor
  · rintro ⟨q, _, hFq⟩
    cases hlq : look fs q with
    | none =>
      rw [hlq] at hFq
      cases hFq
    | some e =>
      cases e with
      | dir =>
        rw [hlq] at hFq
        cases hFq
      | file c' =>
        rw [hlq] at hFq
        have hFq2 : (if (src.isPrefixOf q && decide (src.length < q.length)) = true then
            some (src.getLastD "" :: q.drop src.length, c') else none) = some (arc, c) := hFq
        by_cases hcond : (src.isPrefixOf q && decide (src.length < q.length)) = true
        · rw [if_pos hcond] at hFq2
          injection hFq2 with hFq2
          have h1 := congrArg Prod.fst hFq2
          have h2 := congrArg Prod.snd hFq2
          obtain ⟨hpq, hlen⟩ := Bool.and_eq_true_iff.1 hcond
          have hpre : src <+: q := (prefixBool_iff _ _).1 hpq
          have hlen' : src.length < q.length := of_decide_eq_true hlen
          refine ⟨q.drop src.length, ?_, h1.symm, ?_⟩
          · intro hnil
            have hl0 := congrArg List.length hnil
            rw [List.length_drop] at hl0
            simp only [List.length_nil] at hl0
            omega
          · have h2' : c' = c := h2
            rw [append_drop_of_prefix_eq hpre, hlq, h2']
        · rw [if_neg hcond] at hFq2
          cases hFq2
  · rintro ⟨rel, hne, harc, hlook⟩
    refine ⟨src ++ rel, (mem_livePaths _ _).2 (by rw [hlook]; rfl), ?_⟩
    rw [hlook]
    show (if (src.isPrefixOf (src ++ rel) && decide (src.length < (src ++ rel).length)) = true
      then some (src.getLastD "" :: (src ++ rel).drop src.length, c) else none) = some (arc, c)
    rw [if_pos (Bool.and_eq_true_iff.2 ⟨(prefixBool_iff _ _).2 (List.prefix_append _ _),
      decide_eq_true (by
        rw [List.length_append]
        have := List.length_pos.2 hne
        omega)⟩)]
    rw [List.drop_left, harc]

theorem look_zip_files (entries : List (Path × String)) (dest arc : Path) (c : String)
    (hmem : (arc, c) ∈ entries)
    (huniq : ∀ c', (arc, c') ∈ entries → c' = c) :
    look (entries.map (fun e => (dest ++ e.1, Entry.file e.2))) (dest ++ arc)
      = some (Entry.file c) := by
  induction entries with
  | nil => cases hmem
  | cons x t ih =>
    obtain ⟨a1, c1⟩ := x
    rw [List.map_cons]
    by_cases hk : dest ++ a1 = dest ++ arc
    · have ha : a1 = arc := List.append_cancel_left hk
      subst ha
      rw [look, if_pos hk, huniq c1 (List.mem_cons_self _ _)]
    · rw [look, if_neg hk]
      apply ih
      · rcases List.mem_cons.1 hmem with heq | hm
        · exact absurd (by injection heq with h1 _; rw [h1]) hk
        · exact hm
      · intro c' hc'
        exact huniq c' (List.mem_cons_of_mem _ hc')

/-- Claim C9 (counterexample): a staging layout containing an empty
directory is not reproduced verbatim — the archiver records only files, so
the empty directory yields no entry and is absent after extraction. -/
theorem zip_empty_dir_counterexample :
    zip_entries [(["stage"], Entry.dir), (["stage", "empty"], Entry.dir)] ["stage"] = [] ∧
    look [(["stage"], Entry.dir), (["stage", "empty"], Entry.dir)] ["stage", "empty"]
      = some Entry.dir ∧
    look (zip_extract (zip_entries
        [(["stage"], Entry.dir), (["stage", "empty"], Entry.dir)] ["stage"]) ["dest"])
      ["dest", "stage", "empty"] = none := by
  refine ⟨by decide, by decide, by decide⟩

/-- Claim C9 (amended): every archive entry's internal path is rooted at the
staging root's own directory name (single top-level entry); a path-content
pair appears in the archive exactly for the files below the staging root;
and extracting anywhere reproduces every archived file verbatim.  Empty
directories produce no entry and are lost on extraction, so only the
file content (with the directories containing it) is reproduced, not the
layout's empty directories. -/
theorem zip_directory_spec (fs : FS) (src : Path)
    (hdir : look fs src = some Entry.dir) :
    (∀ pr ∈ zip_entries fs src, pr.1.head? = some (src.getLastD "")) ∧
    (∀ (rel : Path) (c : String), rel ≠ [] →
      (look fs (src ++ rel) = some (Entry.file c) ↔
        (src.getLastD "" :: rel, c) ∈ zip_entries fs src)) ∧
    (∀ (dest rel : Path) (c : String), rel ≠ [] →
      look fs (src ++ rel) = some (Entry.file c) →
      look (zip_extract (zip_entries fs src) dest) (dest ++ src.getLastD "" :: rel)
        = some (Entry.file c)) := by
  refine ⟨?_, ?_, ?_⟩
  · rintro ⟨arc, c⟩ hpr
    obtain ⟨rel, _, harc, _⟩ := (mem_zip_entries fs src hdir arc c).1 hpr
    rw [harc]
    rfl
  · intro rel c hne
    constructor
    · intro hl
      exact (mem_zip_entries fs src hdir _ c).2 ⟨rel, hne, rfl, hl⟩
    · intro hm
      obtain ⟨rel', _, harc, hl⟩ := (mem_zip_entries fs src hdir _ c).1 hm
      have hr : rel = rel' := congrArg List.tail harc
      rw [hr]
      exact hl
  · intro dest rel c hne hl
    unfold zip_extract
    apply look_append_of_some
    apply look_zip_files
    · exact (mem_zip_entries fs src hdir _ c).2 ⟨rel, hne, rfl, hl⟩
    · intro c' hc'
      obtain ⟨rel', _, harc, hl'⟩ := (mem_zip_entries fs src hdir _ c').1 hc'
      have hr : rel = rel' := congrArg List.tail harc
      rw [hr] at hl
      have hcc := hl'.symm.trans hl
      injection hcc with hcc
      injection hcc

theorem zip_directory_spec_witness :
    (look [(["stage"], Entry.dir), (["stage", "f.txt"], Entry.file "c")] ["stage"]
        = some Entry.dir ∧ (["f.txt"] : Path) ≠ []) ∧
    ((["stage", "f.txt"], "c") ∈
      zip_entries [(["stage"], Entry.dir), (["stage", "f.txt"], Entry.file "c")] ["stage"]) ∧
    look (zip_extract (zip_entries
        [(["stage"], Entry.dir), (["stage", "f.txt"], Entry.file "c")] ["stage"]) ["dest"])
      ["dest", "stage", "f.txt"] = some (Entry.file "c") := by
  refine ⟨⟨by decide, by decide⟩, ?_, ?_⟩
  · exact ((zip_directory_spec [(["stage"], Entry.dir), (["stage", "f.txt"], Entry.file "c")]
      ["stage"] (by decide)).2.1 ["f.txt"] "c" (by decide)).1 (by decide)
  · exact (zip_directory_spec [(["stage"], Entry.dir), (["stage", "f.txt"], Entry.file "c")]
      ["stage"] (by decide)).2.2 ["dest"] ["f.txt"] "c" (by decide) (by decide)

/-! ## Theorems: name consistency across artifacts (claim C10) -/

theorem append_last_ne (i : Path) {x y : String} (hxy : x ≠ y) :
    i ++ [x] ≠ i ++ [y] := by
  intro h
  have h2 := List.append_cancel_left h
  injection h2 with h3 _
  exact hxy h3

theorem getLast_concat_ne {p : Path} {x y : String} (hxy : x ≠ y) :
    ¬ (p ++ [x]).getLast? = some y := by
  rw [List.getLast?_concat]
  intro h
  injection h with h
  exact hxy h

theorem dest_not_pre_internal (out : Path) (a f : String)
    (hne : a ≠ INTERNAL_SCRIPTS_DIR_NAME) :
    ¬ (out ++ [a]) <+: (out ++ [INTERNAL_SCRIPTS_DIR_NAME]) ++ [f] := by
  rw [List.append_assoc]
  intro h
  rw [List.prefix_append_right_inj] at h
  obtain ⟨tl, htl⟩ := h
  have htl2 : a :: tl = INTERNAL_SCRIPTS_DIR_NAME :: [f] := htl
  injection htl2 with h1 _
  exact hne h1

theorem internal_file_ne_dest (out : Path) (f a : String) :
    (out ++ [INTERNAL_SCRIPTS_DIR_NAME]) ++ [f] ≠ out ++ [a] := by
  intro h
  have := congrArg List.length h
  simp [List.length_append] at this

/-- Claim C10: on every successful build, the three artifacts naming the
application's code directory agree: the `AppFolder` value in the metadata
record, the name of the application-code subdirectory created under the
output root, and the prefix of the dotted module path executed by the
generated bootstrap script all equal the supplied application name,
whatever the source directory's basename is (the source path is universally
quantified and absent from every conclusion). -/
theorem build_consistency (fs w : FS) (out src sd : Path) (a e v : String)
    (hok : buildE fs out src sd a e v = Except.ok w)
    (hne : a ≠ INTERNAL_SCRIPTS_DIR_NAME) :
    (∃ pv, look w ((out ++ [INTERNAL_SCRIPTS_DIR_NAME]) ++ ["metadata.txt"]) =
        some (Entry.file (metadata_txt a e v pv)) ∧
      (metadata_pairs a e v pv).get? 1 = some ("AppFolder", a)) ∧
    look w (out ++ [a]) = some Entry.dir ∧
    look w ((out ++ [INTERNAL_SCRIPTS_DIR_NAME]) ++ ["boot.py"]) =
      some (Entry.file (boot_py_content a e)) ∧
    boot_py_content a e = a ++ "." ++ module_path_of_entry e := by
  unfold buildE at hok
  split at hok
  · cases hok
  · unfold buildRest buildCopyPhase at hok
    dsimp only at hok
    set t := buildWrites (buildScripted (stage fs out) out sd) out src a e v with ht
    split at hok
    case _ hm =>
      injection hok with hok
      subst hok
      have h8 : ∀ p : Path, ¬ (out ++ [a]) <+: p →
          look (if (look t (out ++ [a])).isSome then rmtree t (out ++ [a]) else t) p
            = look t p := by
        intro p hp
        split
        · rw [look_rmtree, if_neg hp]
        · rfl
      have hmdpath : ∀ f : String, f ≠ "__init__.py" → f ≠ "setup.bat" →
          look (writeFile (ensure_pkg_tree (copytree
              (if (look t (out ++ [a])).isSome then rmtree t (out ++ [a]) else t)
              src (out ++ [a])) (out ++ [a]))
            ((out ++ [INTERNAL_SCRIPTS_DIR_NAME]) ++ ["setup.bat"]) setup_bat_content)
            ((out ++ [INTERNAL_SCRIPTS_DIR_NAME]) ++ [f])
          = look t ((out ++ [INTERNAL_SCRIPTS_DIR_NAME]) ++ [f]) := by
        intro f hf1 hf2
        rw [look_writeFile, if_neg (append_last_ne _ (fun h => hf2 h.symm))]
        rw [look_ensure, if_neg (fun hc => getLast_concat_ne hf1 hc.1)]
        rw [look_copytree, if_neg (fun hc => dest_not_pre_internal out a f hne hc.1)]
        exact h8 _ (dest_not_pre_internal out a f hne)
      refine ⟨⟨get_python_version
          (requirementsLines (buildScripted (stage fs out) out sd) src), ?_, rfl⟩,
        ?_, ?_, rfl⟩
      · rw [hmdpath "metadata.txt" (by decide) (by decide), ht]
        unfold buildWrites
        dsimp only
        rw [look_writeFile, if_neg (append_last_ne _ (by decide)),
          look_writeFile, if_neg (append_last_ne _ (by decide)),
          look_writeFile, if_pos rfl]
      · have hcopydir : look (copytree
            (if (look t (out ++ [a])).isSome then rmtree t (out ++ [a]) else t)
            src (out ++ [a])) (out ++ [a]) = some Entry.dir := by
          have hcond : (out ++ [a]) <+: (out ++ [a]) ∧
              ignoredRel ((out ++ [a]).drop (out ++ [a]).length) = false ∧
              (look (if (look t (out ++ [a])).isSome then rmtree t (out ++ [a]) else t)
                (src ++ (out ++ [a]).drop (out ++ [a]).length)).isSome = true := by
            refine ⟨List.prefix_refl _, ?_, ?_⟩
            · rw [List.drop_length]
              rfl
            · rw [List.drop_length, List.append_nil, hm]
              rfl
          rw [look_copytree, if_pos hcond, List.drop_length, List.append_nil]
          exact hm
        rw [look_writeFile, if_neg (internal_file_ne_dest out "setup.bat" a)]
        rw [look_ensure, if_neg (fun hc => absurd hc.2.2.2.2 (by rw [hcopydir]; simp))]
        exact hcopydir
      · rw [hmdpath "boot.py" (by decide) (by decide), ht]
        unfold buildWrites
        dsimp only
        rw [look_writeFile, if_neg (append_last_ne _ (by decide)),
          look_writeFile, if_pos rfl]
    case _ =>
      cases hok

theorem build_consistency_witness :
    (("Demo" : String) ≠ INTERNAL_SCRIPTS_DIR_NAME) ∧
    look (resultState (buildE [(["proj"], Entry.dir), (["proj", "m.py"], Entry.file "x")]
        ["out"] ["proj"] ["sd"] "Demo" "core.py" "1.0.0")) (["out"] ++ ["Demo"])
      = some Entry.dir ∧
    look (resultState (buildE [(["proj"], Entry.dir), (["proj", "m.py"], Entry.file "x")]
        ["out"] ["proj"] ["sd"] "Demo" "core.py" "1.0.0"))
      ((["out"] ++ [INTERNAL_SCRIPTS_DIR_NAME]) ++ ["boot.py"])
      = some (Entry.file (boot_py_content "Demo" "core.py")) := by
  have h := build_consistency [(["proj"], Entry.dir), (["proj", "m.py"], Entry.file "x")]
    (resultState (buildE [(["proj"], Entry.dir), (["proj", "m.py"], Entry.file "x")]
      ["out"] ["proj"] ["sd"] "Demo" "core.py" "1.0.0"))
    ["out"] ["proj"] ["sd"] "Demo" "core.py" "1.0.0" rfl (by decide)
  exact ⟨by decide, h.2.1, h.2.2.1⟩

end Spec2Proof
